import Mathlib

/-!
Verification of the process-analysis aggregation core
(`labml_app/analyses/computers/process.py`).

The embedding models Python values and dictionaries explicitly:

* Python scalar sample values become `PyVal` (string / rational / boolean),
  with Python truthiness as `PyVal.truthy`;
* Python `dict`s become insertion-ordered association lists
  (`List (String × α)`); assignment to an absent key appends at the end,
  assignment to a present key updates it in place, matching CPython;
* Python `float`s become `ℚ` (the claims only compare them);
* raising paths (`s['value'][0]` on an empty payload, `names[pid]` on a
  missing key, `seq[-1]` on an empty list) become `Except String`.

External collaborators that are part of the repository but outside the
excerpt (`Series`, `SeriesCollection`, `COMPUTEREnums`) are modelled from
the spec; each such definition is marked `Modelled from the spec:`.
-/

/-- A Python scalar value as it appears in sample payloads and
attribute maps: a string, a number (modelled as `ℚ`), or a boolean. -/
inductive PyVal where
  | str (s : String)
  | num (q : ℚ)
  | bool (b : Bool)
deriving DecidableEq, Repr

/-- Python truthiness of a `PyVal` (`if dead:` etc.). -/
def PyVal.truthy : PyVal → Bool
  | .str s => s ≠ ""
  | .num q => q ≠ 0
  | .bool b => b

/-- First-match lookup in an insertion-ordered association list,
Python `d[k]` / `d.get(k)`. -/
def alookup {α : Type} : List (String × α) → String → Option α
  | [], _ => none
  | (k, v) :: rest, q => if k = q then some v else alookup rest q

/-- Python `k in d`. -/
def hasKey {α : Type} (m : List (String × α)) (k : String) : Bool :=
  (alookup m k).isSome

/-- Python `d.get(k, dflt)`. -/
def alookupD {α : Type} (m : List (String × α)) (k : String) (dflt : α) : α :=
  (alookup m k).getD dflt

/-- Python `if k not in d: d[k] = v` — writes only an absent key, the new
entry goes to the end (dict insertion order). -/
def insertIfAbsent {α : Type} (m : List (String × α)) (k : String) (v : α) :
    List (String × α) :=
  if hasKey m k then m else m ++ [(k, v)]

/-- Python `d[k] = v`: update in place if present (keeping the position),
else append. -/
def dinsert {α : Type} : List (String × α) → String → α → List (String × α)
  | [], k, v => [(k, v)]
  | (k', v') :: rest, k, v =>
    if k' = k then (k', v) :: rest else (k', v') :: dinsert rest k v

/-- Python `d[k] = f (d[k])`: in-place mutation of the entry at `k`
(first occurrence), a no-op when `k` is absent. -/
def updA {α : Type} : List (String × α) → String → (α → α) → List (String × α)
  | [], _, _ => []
  | (k', v) :: rest, k, f =>
    if k' = k then (k', f v) :: rest else (k', v) :: updA rest k f

/-- `Set.add` on a Python set modelled as a duplicate-free list. -/
def setAdd (s : List String) (x : String) : List String :=
  if x ∈ s then s else s ++ [x]

/-- Auxiliary splitter over the character list. -/
def splitDotAux : List Char → List Char → List String
  | [], cur => [String.mk cur.reverse]
  | c :: rest, cur =>
    if c = '.' then String.mk cur.reverse :: splitDotAux rest []
    else splitDotAux rest (c :: cur)

/-- Python `ind.split('.')`: always non-empty, `"".split('.') == ['']`. -/
def splitDot (s : String) : List String := splitDotAux s.toList []

/-- `list.startswith`-style check on character lists. -/
def listStartsWith : List Char → List Char → Bool
  | [], _ => true
  | _ :: _, [] => false
  | a :: as, b :: bs => a = b && listStartsWith as bs

/-- Substring containment on character lists. -/
def containsSeg (needle : List Char) : List Char → Bool
  | [] => listStartsWith needle []
  | c :: t => listStartsWith needle (c :: t) || containsSeg needle t

/-- Python `needle in hay` on strings (substring containment). -/
def strContainsSeg (hay needle : String) : Bool :=
  containsSeg needle.toList hay.toList

/-- `'.'.join(ind_split[:-1])`: the Process Identifier derived from a
composite key. -/
def derivedPid (k : String) : String :=
  String.intercalate "." (splitDot k).dropLast

/-- `ind_split[-1]`: the metric suffix of a composite key
(`splitDot` is never empty, so the default is never used). -/
def derivedSuffix (k : String) : String :=
  (splitDot k).getLastD ""

/-- `ind_split[0]`: the analysis-type segment of a composite key. -/
def derivedType (k : String) : String :=
  (splitDot k).headD ""

/-- Modelled from the spec: `COMPUTEREnums.PROCESS`, the analysis-type
segment that routes a composite key to this analysis. Its concrete text
is not in the excerpt; the claims only need it as a fixed string. -/
def COMPUTEREnums.PROCESS : String := "process"

/-- `ALMOST_ZERO = 1.0E-2`, the near-zero cpu threshold (as the exact
rational 1/100, written as a normalized literal). -/
def ALMOST_ZERO : ℚ := ⟨1, 100, by norm_num, by norm_num⟩

/-- `SERIES_NAMES` from the source. -/
def SERIES_NAMES : List String := ["rss", "vms", "cpu", "threads", "user", "system"]

/-- Modelled from the spec: a raw series payload (`SeriesModel`) as the
external Bounded Time Series collaborator hands it over: the raw sample
values (`s['value']`, whose first element feeds the attribute maps)
together with the smoothed sequence and summary mean that
`Series().load(...)` derives from it — the smoothing math itself is
external to the excerpt, so the derived data rides along uninterpreted. -/
structure SeriesModel where
  value : List PyVal
  smoothed : List ℚ
  mean : ℚ
deriving DecidableEq, Repr

/-- A per-metric detail object (`s.detail`): the smoothed sequence plus
the `name` tag that `get_tracking` / `get_process` may attach later. -/
structure Detail where
  smoothed : List ℚ
  name : Option PyVal
deriving DecidableEq, Repr

/-- Modelled from the spec: the loaded form of a series
(`Series().load(track)`), exposing `summary['mean']` and `detail`. -/
structure Series where
  smoothed : List ℚ
  mean : ℚ
deriving DecidableEq, Repr

/-- Modelled from the spec: `Series().load(track)`. -/
def Series.load (t : SeriesModel) : Series := ⟨t.smoothed, t.mean⟩

/-- `s.detail`, with no `name` attached yet. -/
def Series.detail (s : Series) : Detail := ⟨s.smoothed, none⟩

/-- The per-process result record built by `get_tracking` and cached in
`zero_cpu_processes` (a Python dict with these fixed keys; `cpu`/`rss`
are `none` while the corresponding detail has not been attached). -/
structure ProcessRec where
  process_id : String
  dead : PyVal
  pid : PyVal
  name : PyVal
  is_zero_cpu : Bool
  cpu : Option Detail
  rss : Option Detail
deriving DecidableEq, Repr

/-- The per-session aggregation state (`ProcessModel` plus the
`tracking` store inherited from `SeriesCollection`). -/
structure ProcessModel where
  names : List (String × PyVal)
  exes : List (String × PyVal)
  cmdlines : List (String × PyVal)
  create_times : List (String × PyVal)
  pids : List (String × PyVal)
  ppids : List (String × PyVal)
  dead : List (String × PyVal)
  gpu_processes : List (String × List String)
  zero_cpu_processes : List (String × ProcessRec)
  tracking : List (String × SeriesModel)
  max_buffer_length : Nat := 100
deriving DecidableEq, Repr

/-- One static-attribute write in `track`:
`if process_id not in m: m[process_id] = s['value'][0]`.
The payload is indexed only when the key is absent; an empty payload then
raises `IndexError`. -/
def attrWrite (m : List (String × PyVal)) (k : String) (s : SeriesModel) :
    Except String (List (String × PyVal)) :=
  if hasKey m k then .ok m
  else
    match s.value.head? with
    | none => .error "IndexError: list index out of range"
    | some v => .ok (m ++ [(k, v)])

/-- One iteration of the `track` loop for the batch item `(ind, s)`:
classify the composite key, route static attributes to their maps
(first-write-wins), register GPU sub-processes, and accumulate the
samples forwarded to the series store into `res`. -/
def trackStep (st : ProcessModel) (res : List (String × SeriesModel))
    (ind : String) (s : SeriesModel) :
    Except String (ProcessModel × List (String × SeriesModel)) :=
  let ind_split := splitDot ind
  let ind_type := ind_split.headD ""
  if ind_type = COMPUTEREnums.PROCESS then
    let suffix := ind_split.getLastD ""
    let process_id := String.intercalate "." ind_split.dropLast
    if suffix = "name" then
      (attrWrite st.names process_id s).map fun m => ({ st with names := m }, res)
    else if suffix = "exe" then
      (attrWrite st.exes process_id s).map fun m => ({ st with exes := m }, res)
    else if suffix = "cmdline" then
      (attrWrite st.cmdlines process_id s).map fun m => ({ st with cmdlines := m }, res)
    else if suffix = "create_time" then
      (attrWrite st.create_times process_id s).map fun m => ({ st with create_times := m }, res)
    else if suffix = "pid" then
      (attrWrite st.pids process_id s).map fun m => ({ st with pids := m }, res)
    else if suffix = "ppids" then
      (attrWrite st.ppids process_id s).map fun m => ({ st with ppids := m }, res)
    else if suffix = "dead" then
      (attrWrite st.dead process_id s).map fun m => ({ st with dead := m }, res)
    else
      let st1 :=
        if strContainsSeg process_id "gpu" then
          let process_id2 := String.intercalate "." (ind_split.take 2)
          let gpu_process := String.intercalate "." ((ind_split.drop 2).take 2)
          if hasKey st.gpu_processes process_id2 then
            let g1 := updA st.gpu_processes process_id2 (fun g => setAdd g gpu_process)
            { st with gpu_processes := g1 }
          else
            { st with gpu_processes := st.gpu_processes ++ [(process_id2, [gpu_process])] }
        else st
      .ok (st1, dinsert res ind s)
  else
    .ok (st, res)

/-- The `track` loop over the whole ingestion batch, threading the
attribute state and the forwarded batch `res`. -/
def trackGo (st : ProcessModel) (res : List (String × SeriesModel)) :
    List (String × SeriesModel) →
    Except String (ProcessModel × List (String × SeriesModel))
  | [] => .ok (st, res)
  | (ind, s) :: rest =>
    match trackStep st res ind s with
    | .error e => .error e
    | .ok (st1, res1) => trackGo st1 res1 rest

/-- Modelled from the spec: `SeriesCollection.track` (the Series Store's
append-batch): each forwarded sample batch is appended to its series,
the series being created on first append.  The smoothing math is outside
the excerpt, so the merged entry keeps the concatenated raw values and
carries the incoming payload's smoothed sequence and mean. -/
def SeriesCollection.track (tracking : List (String × SeriesModel))
    (res : List (String × SeriesModel)) : List (String × SeriesModel) :=
  res.foldl (fun t kv =>
    match alookup t kv.1 with
    | some old => dinsert t kv.1 ⟨old.value ++ kv.2.value, kv.2.smoothed, kv.2.mean⟩
    | none => t ++ [kv]) tracking

/-- `ProcessAnalysis.track`: classify/route the batch, then hand the
remaining samples to the series store. -/
def ProcessAnalysis.track (st : ProcessModel)
    (data : List (String × SeriesModel)) : Except String ProcessModel :=
  match trackGo st [] data with
  | .error e => .error e
  | .ok (st1, res) =>
    .ok { st1 with tracking := SeriesCollection.track st1.tracking res }

/-- The result record lazily materialized by `get_tracking` on first
encounter of a Process Identifier. -/
def mkProcessRec (m : ProcessModel) (process_id : String) (deadv : PyVal) :
    ProcessRec :=
  { process_id := process_id
    dead := deadv
    pid := alookupD m.pids process_id (.num 0)
    name := alookupD m.names process_id (.str "")
    is_zero_cpu := false
    cpu := none
    rss := none }

/-- Accumulator of the `get_tracking` loop: `res` is the per-process
record dict, `zero` the insertion-ordered ids stashed into the
zero-activity cache (the stashed value is an alias of `res[pid]`, so the
cache is read off `res` after the loop). -/
structure GtAcc where
  res : List (String × ProcessRec)
  zero : List String
deriving DecidableEq, Repr

/-- `self.process.dead.get(process_id, 0)` as read by `get_tracking`. -/
def deadOf (m : ProcessModel) (p : String) : PyVal :=
  alookupD m.dead p (.num 0)

/-- `if process_id not in res: res[process_id] = {...}` — the lazy
materialization of a result record on first encounter. -/
def ensureRec (m : ProcessModel) (res : List (String × ProcessRec))
    (process_id : String) (deadv : PyVal) : List (String × ProcessRec) :=
  if hasKey res process_id then res
  else res ++ [(process_id, mkProcessRec m process_id deadv)]

/-- One iteration of the `get_tracking` loop over a stored series entry. -/
def get_tracking_step (m : ProcessModel) (acc : GtAcc)
    (kv : String × SeriesModel) : GtAcc :=
  let process_id := derivedPid kv.1
  let deadv := deadOf m process_id
  if deadv.truthy then acc
  else
    let res0 := ensureRec m acc.res process_id deadv
    let suffix := derivedSuffix kv.1
    if suffix = "cpu" ∨ suffix = "rss" then
      let s := Series.load kv.2
      let res1 := if suffix = "cpu" ∧ s.mean < ALMOST_ZERO
                  then updA res0 process_id (fun r => { r with is_zero_cpu := true })
                  else res0
      let zero1 := if suffix = "cpu" ∧ s.mean < ALMOST_ZERO
                   then setAdd acc.zero process_id else acc.zero
      let res2 := if suffix = "cpu"
                  then updA res1 process_id (fun r => { r with cpu := some s.detail })
                  else updA res1 process_id (fun r => { r with rss := some s.detail })
      ⟨res2, zero1⟩
    else ⟨res0, acc.zero⟩

/-- The condition under which an iteration of the `get_tracking` loop for
the stored entry `kv` stashes the Process Identifier `p` into the
zero-activity cache (and marks its record `is_zero_cpu`). -/
def zeroHit (m : ProcessModel) (p : String) (kv : String × SeriesModel) : Prop :=
  derivedPid kv.1 = p ∧ derivedSuffix kv.1 = "cpu" ∧
    kv.2.mean < ALMOST_ZERO ∧ (deadOf m p).truthy = false

instance (m : ProcessModel) (p : String) (kv : String × SeriesModel) :
    Decidable (zeroHit m p kv) := by
  unfold zeroHit
  infer_instance

/-- `s['cpu']['smoothed'][-1]` as evaluated by the sort: `none` when the
record has no `cpu` detail or its smoothed sequence is empty (the
`IndexError` branch). -/
def sortKeyOpt (r : ProcessRec) : Option ℚ :=
  match r.cpu with
  | some d => d.smoothed.getLast?
  | none => none

/-- Total version of the sort key (the queries only sort after ruling
out the `IndexError` branch, where it agrees with `sortKeyOpt`). -/
def sortKey (r : ProcessRec) : ℚ :=
  match r.cpu with
  | some d => d.smoothed.getLastD 0
  | none => 0

/-- Stable descending insertion: a later element goes after all earlier
elements with a key ≥ its own, as CPython's stable
`sort(key=..., reverse=True)` arranges. -/
def insortDesc {α : Type} (key : α → ℚ) (x : α) : List α → List α
  | [] => [x]
  | y :: ys => if key y ≤ key x then x :: y :: ys else y :: insortDesc key x ys

/-- Stable descending sort by a rational key
(`list.sort(key=..., reverse=True)`). -/
def pySortDesc {α : Type} (key : α → ℚ) : List α → List α
  | [] => []
  | x :: xs => insortDesc key x (pySortDesc key xs)

/-- `v['cpu']['name'] = v['name']`: attach the process name onto the cpu
detail of a record (done for the first five sorted records). -/
def nameCpu (r : ProcessRec) : ProcessRec :=
  { r with cpu := r.cpu.map fun d => { d with name := some r.name } }

/-- `ProcessAnalysis.get_tracking`: one pass over the stored series
building the per-process records, the ranked list, the top-5 summary and
the rebuilt zero-activity cache; `IndexError` when the sort indexes the
last element of an empty smoothed sequence.  Returns
`(ranked list, summary, state with the replaced cache)`. -/
def ProcessAnalysis.get_tracking (m : ProcessModel) :
    Except String (List ProcessRec × List Detail × ProcessModel) :=
  let acc := m.tracking.foldl (get_tracking_step m) ⟨[], []⟩
  let ret0 := (acc.res.filter fun kv =>
      !(kv.2.is_zero_cpu || kv.2.cpu.isNone || kv.2.rss.isNone)).map (·.2)
  if ret0.any fun r => (sortKeyOpt r).isNone then
    .error "IndexError: list index out of range"
  else
    let ret1 := pySortDesc sortKey ret0
    let retNamed := (ret1.take 5).map nameCpu ++ ret1.drop 5
    let summary := (retNamed.take 5).filterMap (·.cpu)
    let zcache := acc.zero.map fun p =>
      (p, (alookup acc.res p).getD (mkProcessRec m p (.num 0)))
    .ok (retNamed, summary, { m with zero_cpu_processes := zcache })

/-- `ProcessAnalysis.get_zero_cpu_processes`: read the persisted cache,
keep complete records, sort descending by last smoothed cpu value. -/
def ProcessAnalysis.get_zero_cpu_processes (m : ProcessModel) :
    Except String (List ProcessRec) :=
  let ret0 := (m.zero_cpu_processes.filter fun kv =>
      !(kv.2.cpu.isNone || kv.2.rss.isNone)).map (·.2)
  if ret0.any fun r => (sortKeyOpt r).isNone then
    .error "IndexError: list index out of range"
  else .ok (pySortDesc sortKey ret0)

/-- The full attribute snapshot plus per-metric details returned by
`get_process`. -/
structure ProcessDetail where
  process_id : String
  name : PyVal
  create_time : PyVal
  cmdline : PyVal
  exe : PyVal
  pid : PyVal
  ppid : PyVal
  dead : PyVal
  series : List Detail
deriving DecidableEq, Repr

/-- `ProcessAnalysis.get_process`: `KeyError` when no `name` attribute
was ever recorded (`self.process.names[process_id]`); every other
attribute defaults.  Metrics with no stored series are omitted. -/
def ProcessAnalysis.get_process (m : ProcessModel) (process_id : String) :
    Except String ProcessDetail :=
  match alookup m.names process_id with
  | none => .error "KeyError"
  | some nm =>
    let series1 := SERIES_NAMES.filterMap fun s_name =>
      match alookup m.tracking (process_id ++ "." ++ s_name) with
      | some track => some { (Series.load track).detail with name := some (.str s_name) }
      | none => none
    let gpus := alookupD m.gpu_processes process_id []
    let series2 := gpus.filterMap fun gpu_process =>
      let s_name := gpu_process ++ ".mem"
      match alookup m.tracking (process_id ++ "." ++ s_name) with
      | some track => some { (Series.load track).detail with name := some (.str s_name) }
      | none => none
    .ok { process_id := process_id
          name := nm
          create_time := alookupD m.create_times process_id (.num 0)
          cmdline := alookupD m.cmdlines process_id (.str "")
          exe := alookupD m.exes process_id (.str "")
          pid := alookupD m.pids process_id (.num 0)
          ppid := alookupD m.ppids process_id (.num 0)
          dead := alookupD m.dead process_id (.num 0)
          series := series1 ++ series2 }

instance {ε α : Type} [DecidableEq ε] [DecidableEq α] : DecidableEq (Except ε α) := fun x y =>
  match x, y with
  | .ok a, .ok b =>
    if h : a = b then .isTrue (congrArg Except.ok h)
    else .isFalse (fun hh => h (Except.ok.inj hh))
  | .error a, .error b =>
    if h : a = b then .isTrue (congrArg Except.error h)
    else .isFalse (fun hh => h (Except.error.inj hh))
  | .ok _, .error _ => .isFalse (fun hh => Except.noConfusion hh)
  | .error _, .ok _ => .isFalse (fun hh => Except.noConfusion hh)

/-- The all-empty session state (`ProcessModel.defaults`). -/
def ProcessModel.defaults : ProcessModel :=
  { names := [], exes := [], cmdlines := [], create_times := [], pids := [],
    ppids := [], dead := [], gpu_processes := [], zero_cpu_processes := [],
    tracking := [] }

/-- A one-sample payload carrying the value 7 (used as a concrete
ingestion payload). -/
def sampleVal7 : SeriesModel := ⟨[.num 7], [], 0⟩

/-- A cpu payload whose summary mean 0 is below `ALMOST_ZERO`. -/
def sampleCpuIdle : SeriesModel := ⟨[.num 0], [0], 0⟩

/-- A cpu payload with mean 5 and smoothed sequence `[3, 5]`. -/
def sampleCpuBusy : SeriesModel := ⟨[.num 5], [3, 5], 5⟩

/-- A second busy cpu payload with a smaller last smoothed value. -/
def sampleCpuMid : SeriesModel := ⟨[.num 2], [1, 2], 2⟩

/-- An rss payload. -/
def sampleRss : SeriesModel := ⟨[.num 9], [9], 9⟩

/-- A cpu payload whose smoothed sequence is empty but whose mean 1 is
above the zero-cpu threshold (so its record reaches the sort). -/
def sampleEmptySmoothed : SeriesModel := ⟨[.num 1], [], 1⟩

/-- The tracked series of `exampleIdle`: an idle process `process.a`
(cpu mean 0) and a busy process `process.b`. -/
def idleTracking : List (String × SeriesModel) :=
  [("process.a.cpu", sampleCpuIdle), ("process.a.rss", sampleRss),
   ("process.b.cpu", sampleCpuBusy), ("process.b.rss", sampleRss)]

/-- Session state with an idle process `process.a` (cpu mean 0) and a
busy process `process.b`, both with cpu and rss series. -/
def exampleIdle : ProcessModel :=
  { ProcessModel.defaults with tracking := idleTracking }

/-- The tracked series of `exampleDead`. -/
def deadTracking : List (String × SeriesModel) :=
  [("process.d.cpu", sampleCpuBusy), ("process.d.rss", sampleRss),
   ("process.b.cpu", sampleCpuBusy), ("process.b.rss", sampleRss)]

/-- Session state where `process.d` is marked dead but has series data,
and `process.b` is alive and busy. -/
def exampleDead : ProcessModel :=
  { ProcessModel.defaults with
    dead := [("process.d", PyVal.num 1)]
    tracking := deadTracking }

/-- A stale zero-activity record for `process.x` missing its rss detail. -/
def staleZeroRec : ProcessRec :=
  { process_id := "process.x", dead := .num 0, pid := .num 0,
    name := .str "", is_zero_cpu := true, cpu := some ⟨[0], none⟩,
    rss := none }

/-- The tracked series of `exampleRanked`. -/
def rankedTracking : List (String × SeriesModel) :=
  [("process.m.cpu", sampleCpuMid), ("process.m.rss", sampleRss),
   ("process.b.cpu", sampleCpuBusy), ("process.b.rss", sampleRss),
   ("process.c.rss", sampleRss)]

/-- Session state with two busy processes, one rss-only process
`process.c` (no cpu series), and a stale zero-activity cache entry. -/
def exampleRanked : ProcessModel :=
  { ProcessModel.defaults with
    zero_cpu_processes := [("process.x", staleZeroRec)]
    tracking := rankedTracking }

/-- Tracked series whose busy process has an empty smoothed cpu
sequence. -/
def emptySmoothedTracking : List (String × SeriesModel) :=
  [("process.e.cpu", sampleEmptySmoothed), ("process.e.rss", sampleRss)]

/-- Session state whose busy process has an empty smoothed cpu sequence,
driving the ranked sort into its `IndexError` branch. -/
def exampleEmptySmoothed : ProcessModel :=
  { ProcessModel.defaults with tracking := emptySmoothedTracking }

/-- The ranked record that the example states produce for the busy
process `process.b` (name attached to the cpu detail by the top-5 pass). -/
def busyRetRec : ProcessRec :=
  { process_id := "process.b", dead := .num 0, pid := .num 0,
    name := .str "", is_zero_cpu := false,
    cpu := some ⟨[3, 5], some (.str "")⟩, rss := some ⟨[9], none⟩ }

/-- The summary entry produced for `process.b`. -/
def busyCpuDetail : Detail := ⟨[3, 5], some (.str "")⟩

/-- The zero-activity record computed for `process.a` in `exampleIdle`. -/
def idleZeroRec : ProcessRec :=
  { process_id := "process.a", dead := .num 0, pid := .num 0,
    name := .str "", is_zero_cpu := true,
    cpu := some ⟨[0], none⟩, rss := some ⟨[9], none⟩ }

/-- `exampleIdle` after its cache has been rebuilt by `get_tracking`. -/
def exampleIdleOut : ProcessModel :=
  { exampleIdle with zero_cpu_processes := [("process.a", idleZeroRec)] }

/-- Session state with one recorded `name` attribute. -/
def exampleNamed : ProcessModel :=
  { ProcessModel.defaults with names := [("process.a", PyVal.str "python")] }

/-- The detail record `get_process` returns for `process.a` of
`exampleNamed`. -/
def namedDetail : ProcessDetail :=
  { process_id := "process.a", name := .str "python", create_time := .num 0,
    cmdline := .str "", exe := .str "", pid := .num 0, ppid := .num 0,
    dead := .num 0, series := [] }

/-- The ranked record produced for `process.m` of `exampleRanked`. -/
def midRetRec : ProcessRec :=
  { process_id := "process.m", dead := .num 0, pid := .num 0,
    name := .str "", is_zero_cpu := false,
    cpu := some ⟨[1, 2], some (.str "")⟩, rss := some ⟨[9], none⟩ }

/-- The summary entry produced for `process.m`. -/
def midCpuDetail : Detail := ⟨[1, 2], some (.str "")⟩

/-- `exampleRanked` after `get_tracking` replaced its stale cache. -/
def exampleRankedOut : ProcessModel :=
  { exampleRanked with zero_cpu_processes := [] }

/-- A one-sample `name` payload carrying a conflicting name string. -/
def nameSample : SeriesModel := ⟨[.str "malware"], [], 0⟩

theorem alookup_append {α : Type} (m l : List (String × α)) (p : String) :
    alookup (m ++ l) p =
      (match alookup m p with | some v => some v | none => alookup l p) := by
  induction m with
  | nil => simp [alookup]
  | cons kv rest ih =>
    obtain ⟨k, v⟩ := kv
    by_cases h : k = p <;> simp [alookup, h, ih]

theorem alookup_append_left {α : Type} {m : List (String × α)} {p : String}
    {v : α} (l : List (String × α)) (h : alookup m p = some v) :
    alookup (m ++ l) p = some v := by
  rw [alookup_append, h]

theorem alookup_updA_self {α : Type} (m : List (String × α)) (k : String)
    (f : α → α) : alookup (updA m k f) k = (alookup m k).map f := by
  induction m with
  | nil => simp [alookup, updA]
  | cons kv rest ih =>
    obtain ⟨k', v⟩ := kv
    by_cases h : k' = k <;> simp [alookup, updA, h, ih]

theorem alookup_updA_ne {α : Type} (m : List (String × α)) (k q : String)
    (f : α → α) (h : q ≠ k) : alookup (updA m k f) q = alookup m q := by
  induction m with
  | nil => simp [updA]
  | cons kv rest ih =>
    obtain ⟨k', v⟩ := kv
    by_cases h1 : k' = k
    · have h2 : k' ≠ q := fun hh => h (by rw [← hh, h1])
      simp [alookup, updA, h1, h2, Ne.symm h]
    · by_cases h2 : k' = q <;> simp [alookup, updA, h1, h2, ih, h, Ne.symm h]

theorem mem_updA {α : Type} {m : List (String × α)} {k : String} {f : α → α}
    {kv : String × α} (h : kv ∈ updA m k f) :
    (kv.1 = k ∧ ∃ v, (k, v) ∈ m ∧ kv.2 = f v) ∨ kv ∈ m := by
  induction m with
  | nil => simp [updA] at h
  | cons kv' rest ih =>
    obtain ⟨k', v⟩ := kv'
    by_cases h1 : k' = k
    · subst h1
      simp only [updA, if_pos rfl] at h
      rcases List.mem_cons.1 h with h2 | h2
      · subst h2; exact .inl ⟨rfl, v, List.mem_cons_self _ _, rfl⟩
      · exact .inr (List.mem_cons_of_mem _ h2)
    · simp only [updA, if_neg h1] at h
      rcases List.mem_cons.1 h with h2 | h2
      · exact .inr (h2 ▸ List.mem_cons_self _ _)
      · rcases ih h2 with h3 | h3
        · exact .inl ⟨h3.1, h3.2.imp fun v hv => ⟨List.mem_cons_of_mem _ hv.1, hv.2⟩⟩
        · exact .inr (List.mem_cons_of_mem _ h3)

theorem updA_keys {α : Type} (m : List (String × α)) (k : String) (f : α → α) :
    (updA m k f).map Prod.fst = m.map Prod.fst := by
  induction m with
  | nil => simp [updA]
  | cons kv rest ih =>
    obtain ⟨k', v⟩ := kv
    by_cases h : k' = k <;> simp [updA, h, ih]

theorem hasKey_updA {α : Type} (m : List (String × α)) (k q : String)
    (f : α → α) : hasKey (updA m k f) q = hasKey m q := by
  by_cases h : q = k
  · subst h; simp [hasKey, alookup_updA_self, Option.isSome_map']
  · simp [hasKey, alookup_updA_ne m k q f h]

theorem alookup_mem {α : Type} {m : List (String × α)} {p : String} {v : α}
    (h : alookup m p = some v) : (p, v) ∈ m := by
  induction m with
  | nil => simp [alookup] at h
  | cons kv rest ih =>
    obtain ⟨k, w⟩ := kv
    by_cases h1 : k = p
    · subst h1
      have h2 : w = v := by simpa [alookup] using h
      subst h2
      exact List.mem_cons_self _ _
    · simp only [alookup, if_neg h1] at h
      exact List.mem_cons_of_mem _ (ih h)

theorem mem_alookup_nodup {α : Type} {m : List (String × α)} {p : String}
    {v : α} (hnd : (m.map Prod.fst).Nodup) (h : (p, v) ∈ m) :
    alookup m p = some v := by
  induction m with
  | nil => simp at h
  | cons kv rest ih =>
    obtain ⟨k, w⟩ := kv
    simp only [List.map_cons, List.nodup_cons] at hnd
    rcases List.mem_cons.1 h with h1 | h1
    · rw [Prod.mk.injEq] at h1
      obtain ⟨h2, h3⟩ := h1
      subst h2
      subst h3
      simp [alookup]
    · have hk : k ≠ p := by
        intro hk
        subst hk
        exact hnd.1 (List.mem_map.2 ⟨(k, v), h1, rfl⟩)
      simp [alookup, hk, ih hnd.2 h1]

theorem hasKey_append {α : Type} (m l : List (String × α)) (p : String) :
    hasKey (m ++ l) p = (hasKey m p || hasKey l p) := by
  rw [hasKey, alookup_append]
  cases h : alookup m p <;> simp [hasKey, h]

theorem alookup_eq_none_of_not_hasKey {α : Type} {m : List (String × α)}
    {p : String} (h : hasKey m p = false) : alookup m p = none := by
  rw [hasKey] at h
  cases hm : alookup m p <;> simp [hm] at h ⊢

theorem mem_setAdd {s : List String} {x p : String} :
    p ∈ setAdd s x ↔ p ∈ s ∨ p = x := by
  unfold setAdd
  split_ifs with h
  · constructor
    · exact .inl
    · rintro (hp | rfl)
      · exact hp
      · exact h
  · simp [List.mem_append]

theorem alookup_ensure_ne (m : ProcessModel) (res : List (String × ProcessRec))
    (pid p : String) (deadv : PyVal) (h : p ≠ pid) :
    alookup (ensureRec m res pid deadv) p = alookup res p := by
  unfold ensureRec
  split_ifs with h1
  · rfl
  · rw [alookup_append]
    cases hm : alookup res p
    · simp [alookup, Ne.symm h]
    · rfl

theorem alookup_ensure_of_some {m : ProcessModel}
    {res : List (String × ProcessRec)} {pid p : String} {deadv : PyVal}
    {r : ProcessRec} (h : alookup res p = some r) :
    alookup (ensureRec m res pid deadv) p = some r := by
  unfold ensureRec
  split_ifs with h1
  · exact h
  · exact alookup_append_left _ h

theorem alookup_ensure_self (m : ProcessModel)
    (res : List (String × ProcessRec)) (pid : String) (deadv : PyVal) :
    alookup (ensureRec m res pid deadv) pid =
      some ((alookup res pid).getD (mkProcessRec m pid deadv)) := by
  unfold ensureRec
  cases hm : alookup res pid with
  | some r => simp [hasKey, hm]
  | none =>
    simp only [hasKey, hm, Option.isSome_none, Bool.false_eq_true, if_false,
      Option.getD_none]
    rw [alookup_append, hm]
    simp [alookup]

theorem ensure_keys_sub {m : ProcessModel} {res : List (String × ProcessRec)}
    {pid : String} {deadv : PyVal} {kr : String × ProcessRec}
    (h : kr ∈ ensureRec m res pid deadv) :
    kr ∈ res ∨ kr = (pid, mkProcessRec m pid deadv) := by
  unfold ensureRec at h
  split_ifs at h with h1
  · exact .inl h
  · rcases List.mem_append.1 h with h2 | h2
    · exact .inl h2
    · exact .inr (by simpa using h2)

theorem not_mem_keys_of_alookup_none {α : Type} {m : List (String × α)}
    {p : String} (h : alookup m p = none) : p ∉ m.map Prod.fst := by
  induction m with
  | nil => simp
  | cons kv rest ih =>
    obtain ⟨k, v⟩ := kv
    by_cases h1 : k = p
    · simp [alookup, h1] at h
    · simp only [alookup, if_neg h1] at h
      simp only [List.map_cons, List.mem_cons]
      rintro (h2 | h2)
      · exact h1 h2.symm
      · exact ih h h2

theorem ensure_keys_nodup {m : ProcessModel} {res : List (String × ProcessRec)}
    {pid : String} {deadv : PyVal} (h : (res.map Prod.fst).Nodup) :
    ((ensureRec m res pid deadv).map Prod.fst).Nodup := by
  unfold ensureRec
  split_ifs with h1
  · exact h
  · have h2 : alookup res pid = none :=
      alookup_eq_none_of_not_hasKey (Bool.not_eq_true _ ▸ h1)
    rw [List.map_append]
    simp only [List.map_cons, List.map_nil]
    rw [List.nodup_append]
    refine ⟨h, List.nodup_singleton _, ?_⟩
    intro a ha hb
    simp only [List.mem_singleton] at hb
    rw [hb] at ha
    exact not_mem_keys_of_alookup_none h2 ha

theorem hasKey_ensure (m : ProcessModel) (res : List (String × ProcessRec))
    (pid : String) (deadv : PyVal) (p : String) :
    hasKey (ensureRec m res pid deadv) p = true ↔
      hasKey res p = true ∨ p = pid := by
  by_cases hp : p = pid
  · subst hp
    simp [hasKey, alookup_ensure_self]
  · rw [hasKey, alookup_ensure_ne m res pid p deadv hp]
    simp [hasKey, hp]

theorem step_zero_mem (m : ProcessModel) (acc : GtAcc)
    (kv : String × SeriesModel) (p : String) :
    p ∈ (get_tracking_step m acc kv).zero ↔ p ∈ acc.zero ∨ zeroHit m p kv := by
  cases hd : (deadOf m (derivedPid kv.1)).truthy with
  | true =>
    have hz : ¬ zeroHit m p kv := by
      rintro ⟨hp, -, -, hdd⟩
      rw [hp] at hd
      rw [hd] at hdd
      simp at hdd
    simp [get_tracking_step, hd, hz]
  | false =>
    by_cases hc : derivedSuffix kv.1 = "cpu"
    · by_cases hlt : (Series.load kv.2).mean < ALMOST_ZERO
      · have hz : zeroHit m p kv ↔ p = derivedPid kv.1 := by
          constructor
          · exact fun hh => hh.1.symm
          · rintro rfl
            exact ⟨rfl, hc, hlt, hd⟩
        simp [get_tracking_step, hd, hc, hlt, mem_setAdd, hz]
      · have hz : ¬ zeroHit m p kv := fun hh => hlt hh.2.2.1
        simp [get_tracking_step, hd, hc, hlt, hz]
    · have hz : ¬ zeroHit m p kv := fun hh => hc hh.2.1
      by_cases hr : derivedSuffix kv.1 = "rss" <;>
        simp [get_tracking_step, hd, hc, hr, hz]

theorem step_hasKey (m : ProcessModel) (acc : GtAcc) (kv : String × SeriesModel)
    (p : String) :
    hasKey (get_tracking_step m acc kv).res p = true ↔
      hasKey acc.res p = true ∨
        (derivedPid kv.1 = p ∧ (deadOf m p).truthy = false) := by
  cases hd : (deadOf m (derivedPid kv.1)).truthy with
  | true =>
    have hno : ¬ (derivedPid kv.1 = p ∧ (deadOf m p).truthy = false) := by
      rintro ⟨rfl, hdd⟩
      rw [hd] at hdd
      simp at hdd
    simp [get_tracking_step, hd, hno]
  | false =>
    have hens : hasKey (ensureRec m acc.res (derivedPid kv.1)
        (deadOf m (derivedPid kv.1))) p = true ↔
        hasKey acc.res p = true ∨
          (derivedPid kv.1 = p ∧ (deadOf m p).truthy = false) := by
      rw [hasKey_ensure]
      constructor
      · rintro (hh | rfl)
        · exact .inl hh
        · exact .inr ⟨rfl, hd⟩
      · rintro (hh | ⟨rfl, -⟩)
        · exact .inl hh
        · exact .inr rfl
    by_cases hc : derivedSuffix kv.1 = "cpu"
    · by_cases hlt : (Series.load kv.2).mean < ALMOST_ZERO <;>
        simpa [get_tracking_step, hd, hc, hlt, hasKey_updA] using hens
    · by_cases hr : derivedSuffix kv.1 = "rss" <;>
        simpa [get_tracking_step, hd, hc, hr, hasKey_updA] using hens

theorem updA_pres_key {α : Type} {l : List (String × α)} {pid : String}
    {f : α → α} (P : String → Prop) (hl : ∀ kr ∈ l, P kr.1) :
    ∀ kr ∈ updA l pid f, P kr.1 := by
  intro kr hkr
  rcases mem_updA hkr with ⟨h1, v, hv, h2⟩ | h1
  · rw [h1]
    exact hl (pid, v) hv
  · exact hl kr h1

theorem updA_pres_pid {l : List (String × ProcessRec)} {pid : String}
    {f : ProcessRec → ProcessRec}
    (hf : ∀ r, (f r).process_id = r.process_id)
    (hl : ∀ kr ∈ l, (kr.2 : ProcessRec).process_id = kr.1) :
    ∀ kr ∈ updA l pid f, (kr.2 : ProcessRec).process_id = kr.1 := by
  intro kr hkr
  rcases mem_updA hkr with ⟨h1, v, hv, h2⟩ | h1
  · rw [h2, hf v, h1]
    exact hl (pid, v) hv
  · exact hl kr h1

theorem ensure_pres_key {m : ProcessModel} {res : List (String × ProcessRec)}
    {pid : String} {deadv : PyVal} (P : String → Prop) (hpid : P pid)
    (hl : ∀ kr ∈ res, P kr.1) :
    ∀ kr ∈ ensureRec m res pid deadv, P kr.1 := by
  intro kr hkr
  rcases ensure_keys_sub hkr with h1 | h1
  · exact hl kr h1
  · rw [h1]
    exact hpid

theorem step_pid_coherent (m : ProcessModel) (acc : GtAcc)
    (kv : String × SeriesModel)
    (h : ∀ kr ∈ acc.res, (kr.2 : ProcessRec).process_id = kr.1) :
    ∀ kr ∈ (get_tracking_step m acc kv).res,
      (kr.2 : ProcessRec).process_id = kr.1 := by
  have hens : ∀ kr ∈ ensureRec m acc.res (derivedPid kv.1)
      (deadOf m (derivedPid kv.1)), (kr.2 : ProcessRec).process_id = kr.1 := by
    intro kr hkr
    rcases ensure_keys_sub hkr with h1 | h1
    · exact h kr h1
    · rw [h1]
      rfl
  cases hd : (deadOf m (derivedPid kv.1)).truthy with
  | true => simpa [get_tracking_step, hd] using h
  | false =>
    by_cases hc : derivedSuffix kv.1 = "cpu"
    · by_cases hlt : (Series.load kv.2).mean < ALMOST_ZERO
      · simp only [get_tracking_step, hd, hc, hlt]
        simp only [Bool.false_eq_true, if_false, if_pos (Or.inl hc),
          if_pos (And.intro hc hlt), if_pos hc]
        exact updA_pres_pid (fun r => rfl) (updA_pres_pid (fun r => rfl) hens)
      · simp only [get_tracking_step, hd, hc, hlt]
        simp only [Bool.false_eq_true, if_false, if_pos (Or.inl hc), if_pos hc,
          if_neg (fun hh : _ ∧ _ => hlt hh.2)]
        exact updA_pres_pid (fun r => rfl) hens
    · by_cases hr : derivedSuffix kv.1 = "rss"
      · simp only [get_tracking_step, hd, hc, hr]
        simp only [Bool.false_eq_true, if_false, if_pos (Or.inr hr), if_neg hc,
          if_neg (fun hh : _ ∧ _ => hc hh.1)]
        exact updA_pres_pid (fun r => rfl) hens
      · simp only [get_tracking_step, hd, hc, hr]
        simp only [Bool.false_eq_true, if_false,
          if_neg (fun hh : _ ∨ _ => hh.elim hc hr)]
        exact hens

theorem step_nodup (m : ProcessModel) (acc : GtAcc) (kv : String × SeriesModel)
    (h : (acc.res.map Prod.fst).Nodup) :
    (((get_tracking_step m acc kv).res).map Prod.fst).Nodup := by
  cases hd : (deadOf m (derivedPid kv.1)).truthy with
  | true => simpa [get_tracking_step, hd] using h
  | false =>
    by_cases hc : derivedSuffix kv.1 = "cpu" <;>
      by_cases hr : derivedSuffix kv.1 = "rss" <;>
      by_cases hlt : (Series.load kv.2).mean < ALMOST_ZERO <;>
      simp [get_tracking_step, hd, hc, hr, hlt, updA_keys] <;>
      exact ensure_keys_nodup h

theorem ensure_keys (m : ProcessModel) (res : List (String × ProcessRec))
    (pid : String) (dv : PyVal) :
    (ensureRec m res pid dv).map Prod.fst = res.map Prod.fst ∨
      (ensureRec m res pid dv).map Prod.fst = res.map Prod.fst ++ [pid] := by
  unfold ensureRec
  split_ifs with h1
  · exact .inl rfl
  · right
    simp

theorem step_cases (m : ProcessModel) (acc : GtAcc) (kv : String × SeriesModel) :
    ((deadOf m (derivedPid kv.1)).truthy = true ∧
      get_tracking_step m acc kv = acc) ∨
    ((deadOf m (derivedPid kv.1)).truthy = false ∧ derivedSuffix kv.1 = "cpu" ∧
      (Series.load kv.2).mean < ALMOST_ZERO ∧
      get_tracking_step m acc kv =
        ⟨updA (updA (ensureRec m acc.res (derivedPid kv.1)
              (deadOf m (derivedPid kv.1)))
            (derivedPid kv.1) (fun r => { r with is_zero_cpu := true }))
          (derivedPid kv.1)
          (fun r => { r with cpu := some (Series.load kv.2).detail }),
        setAdd acc.zero (derivedPid kv.1)⟩) ∨
    ((deadOf m (derivedPid kv.1)).truthy = false ∧ derivedSuffix kv.1 = "cpu" ∧
      ¬ (Series.load kv.2).mean < ALMOST_ZERO ∧
      get_tracking_step m acc kv =
        ⟨updA (ensureRec m acc.res (derivedPid kv.1)
            (deadOf m (derivedPid kv.1)))
          (derivedPid kv.1)
          (fun r => { r with cpu := some (Series.load kv.2).detail }),
        acc.zero⟩) ∨
    ((deadOf m (derivedPid kv.1)).truthy = false ∧ derivedSuffix kv.1 ≠ "cpu" ∧
      derivedSuffix kv.1 = "rss" ∧
      get_tracking_step m acc kv =
        ⟨updA (ensureRec m acc.res (derivedPid kv.1)
            (deadOf m (derivedPid kv.1)))
          (derivedPid kv.1)
          (fun r => { r with rss := some (Series.load kv.2).detail }),
        acc.zero⟩) ∨
    ((deadOf m (derivedPid kv.1)).truthy = false ∧ derivedSuffix kv.1 ≠ "cpu" ∧
      derivedSuffix kv.1 ≠ "rss" ∧
      get_tracking_step m acc kv =
        ⟨ensureRec m acc.res (derivedPid kv.1) (deadOf m (derivedPid kv.1)),
        acc.zero⟩) := by
  cases hd : (deadOf m (derivedPid kv.1)).truthy with
  | true =>
    refine .inl ⟨rfl, ?_⟩
    simp [get_tracking_step, hd]
  | false =>
    by_cases hc : derivedSuffix kv.1 = "cpu"
    · by_cases hlt : (Series.load kv.2).mean < ALMOST_ZERO
      · refine .inr (.inl ⟨rfl, hc, hlt, ?_⟩)
        simp [get_tracking_step, hd, hc, hlt]
      · refine .inr (.inr (.inl ⟨rfl, hc, hlt, ?_⟩))
        simp [get_tracking_step, hd, hc, hlt]
    · by_cases hr : derivedSuffix kv.1 = "rss"
      · refine .inr (.inr (.inr (.inl ⟨rfl, hc, hr, ?_⟩)))
        simp [get_tracking_step, hd, hc, hr]
      · refine .inr (.inr (.inr (.inr ⟨rfl, hc, hr, ?_⟩)))
        simp [get_tracking_step, hd, hc, hr]

theorem step_keys (m : ProcessModel) (acc : GtAcc)
    (kv : String × SeriesModel) :
    ((get_tracking_step m acc kv).res).map Prod.fst = acc.res.map Prod.fst ∨
      (((get_tracking_step m acc kv).res).map Prod.fst
          = acc.res.map Prod.fst ++ [derivedPid kv.1] ∧
        (deadOf m (derivedPid kv.1)).truthy = false) := by
  rcases step_cases m acc kv with ⟨hd, hstep⟩ | ⟨hd, hc, hlt, hstep⟩ |
    ⟨hd, hc, hlt, hstep⟩ | ⟨hd, hc, hr, hstep⟩ | ⟨hd, hc, hr, hstep⟩ <;>
    rw [hstep] <;>
    try rw [GtAcc.mk.injEq] at hstep
  · exact .inl rfl
  all_goals
    simp only [updA_keys]
  all_goals
    rcases ensure_keys m acc.res (derivedPid kv.1)
      (deadOf m (derivedPid kv.1)) with he | he
  all_goals try exact .inl he
  all_goals exact .inr ⟨he, hd⟩

theorem step_dead_inv (m : ProcessModel) (acc : GtAcc)
    (kv : String × SeriesModel)
    (h : ∀ kr ∈ acc.res, (deadOf m kr.1).truthy = false) :
    ∀ kr ∈ (get_tracking_step m acc kv).res, (deadOf m kr.1).truthy = false := by
  intro kr hkr
  have hk : kr.1 ∈ ((get_tracking_step m acc kv).res).map Prod.fst :=
    List.mem_map.2 ⟨kr, hkr, rfl⟩
  rcases step_keys m acc kv with he | ⟨he, hdd⟩
  · rw [he] at hk
    rcases List.mem_map.1 hk with ⟨kr0, hkr0, hk0⟩
    rw [← hk0]
    exact h kr0 hkr0
  · rw [he] at hk
    rcases List.mem_append.1 hk with h1 | h1
    · rcases List.mem_map.1 h1 with ⟨kr0, hkr0, hk0⟩
      rw [← hk0]
      exact h kr0 hkr0
    · simp only [List.mem_singleton] at h1
      rw [h1]
      exact hdd

theorem step_lookup_ne (m : ProcessModel) (acc : GtAcc)
    (kv : String × SeriesModel) (p : String) (hp : p ≠ derivedPid kv.1) :
    alookup (get_tracking_step m acc kv).res p = alookup acc.res p := by
  rcases step_cases m acc kv with ⟨hd, hstep⟩ | ⟨hd, hc, hlt, hstep⟩ |
    ⟨hd, hc, hlt, hstep⟩ | ⟨hd, hc, hr, hstep⟩ | ⟨hd, hc, hr, hstep⟩ <;>
    rw [hstep] <;> try dsimp only
  · rw [alookup_updA_ne _ _ _ _ hp, alookup_updA_ne _ _ _ _ hp,
      alookup_ensure_ne _ _ _ _ _ hp]
  · rw [alookup_updA_ne _ _ _ _ hp, alookup_ensure_ne _ _ _ _ _ hp]
  · rw [alookup_updA_ne _ _ _ _ hp, alookup_ensure_ne _ _ _ _ _ hp]
  · rw [alookup_ensure_ne _ _ _ _ _ hp]

theorem step_mono (m : ProcessModel) (acc : GtAcc) (kv : String × SeriesModel)
    (p : String) (r : ProcessRec) (h : alookup acc.res p = some r) :
    ∃ r2, alookup (get_tracking_step m acc kv).res p = some r2 ∧
      r2.process_id = r.process_id ∧
      (r.is_zero_cpu = true → r2.is_zero_cpu = true) ∧
      (r.cpu.isSome = true → r2.cpu.isSome = true) ∧
      (r.rss.isSome = true → r2.rss.isSome = true) := by
  by_cases hp : p = derivedPid kv.1
  case neg =>
    refine ⟨r, ?_, rfl, fun hh => hh, fun hh => hh, fun hh => hh⟩
    rw [step_lookup_ne m acc kv p hp, h]
  case pos =>
    subst hp
    rcases step_cases m acc kv with ⟨hd, hstep⟩ | ⟨hd, hc, hlt, hstep⟩ |
      ⟨hd, hc, hlt, hstep⟩ | ⟨hd, hc, hr, hstep⟩ | ⟨hd, hc, hr, hstep⟩ <;>
      rw [hstep] <;> try dsimp only
    · exact ⟨r, h, rfl, fun hh => hh, fun hh => hh, fun hh => hh⟩
    · rw [alookup_updA_self, alookup_updA_self, alookup_ensure_of_some h]
      simp only [Option.map_some']
      exact ⟨_, rfl, rfl, fun _ => rfl, fun _ => rfl, fun hh => hh⟩
    · rw [alookup_updA_self, alookup_ensure_of_some h]
      simp only [Option.map_some']
      exact ⟨_, rfl, rfl, fun hh => hh, fun _ => rfl, fun hh => hh⟩
    · rw [alookup_updA_self, alookup_ensure_of_some h]
      simp only [Option.map_some']
      exact ⟨_, rfl, rfl, fun hh => hh, fun hh => hh, fun _ => rfl⟩
    · rw [alookup_ensure_of_some h]
      exact ⟨r, rfl, rfl, fun hh => hh, fun hh => hh, fun hh => hh⟩

theorem step_cpu_set (m : ProcessModel) (acc : GtAcc) (kv : String × SeriesModel)
    (hc : derivedSuffix kv.1 = "cpu")
    (hd : (deadOf m (derivedPid kv.1)).truthy = false) :
    ∃ r2, alookup (get_tracking_step m acc kv).res (derivedPid kv.1) = some r2 ∧
      r2.cpu = some ⟨kv.2.smoothed, none⟩ ∧
      (kv.2.mean < ALMOST_ZERO → r2.is_zero_cpu = true) := by
  rcases step_cases m acc kv with ⟨hd2, hstep⟩ | ⟨hd2, hc2, hlt, hstep⟩ |
    ⟨hd2, hc2, hlt, hstep⟩ | ⟨hd2, hc2, hr, hstep⟩ | ⟨hd2, hc2, hr, hstep⟩
  · rw [hd] at hd2
    exact absurd hd2 (by simp)
  · rw [hstep]
    dsimp only
    rw [alookup_updA_self, alookup_updA_self, alookup_ensure_self]
    simp only [Option.map_some']
    exact ⟨_, rfl, rfl, fun _ => rfl⟩
  · rw [hstep]
    dsimp only
    rw [alookup_updA_self, alookup_ensure_self]
    simp only [Option.map_some']
    exact ⟨_, rfl, rfl, fun hlt2 => absurd hlt2 hlt⟩
  · exact absurd hc hc2
  · exact absurd hc hc2

theorem step_rss_set (m : ProcessModel) (acc : GtAcc) (kv : String × SeriesModel)
    (hr : derivedSuffix kv.1 = "rss")
    (hd : (deadOf m (derivedPid kv.1)).truthy = false) :
    ∃ r2, alookup (get_tracking_step m acc kv).res (derivedPid kv.1) = some r2 ∧
      r2.rss = some ⟨kv.2.smoothed, none⟩ := by
  rcases step_cases m acc kv with ⟨hd2, hstep⟩ | ⟨hd2, hc2, hlt, hstep⟩ |
    ⟨hd2, hc2, hlt, hstep⟩ | ⟨hd2, hc2, hr2, hstep⟩ | ⟨hd2, hc2, hr2, hstep⟩
  · rw [hd] at hd2
    exact absurd hd2 (by simp)
  · exact absurd (hr.symm.trans hc2) (by decide)
  · exact absurd (hr.symm.trans hc2) (by decide)
  · rw [hstep]
    dsimp only
    rw [alookup_updA_self, alookup_ensure_self]
    simp only [Option.map_some']
    exact ⟨_, rfl, rfl⟩
  · exact absurd hr hr2

theorem step_cpu_origin (m : ProcessModel) (acc : GtAcc)
    (kv : String × SeriesModel) (p : String) (r2 : ProcessRec) (d : Detail)
    (h : alookup (get_tracking_step m acc kv).res p = some r2)
    (hcpu : r2.cpu = some d) :
    (∃ r, alookup acc.res p = some r ∧ r.cpu = some d) ∨
      (derivedPid kv.1 = p ∧ derivedSuffix kv.1 = "cpu" ∧
        d = (Series.load kv.2).detail) := by
  by_cases hp : p = derivedPid kv.1
  case neg =>
    left
    refine ⟨r2, ?_, hcpu⟩
    rw [← step_lookup_ne m acc kv p hp]
    exact h
  case pos =>
    subst hp
    rcases step_cases m acc kv with ⟨hd, hstep⟩ | ⟨hd, hc, hlt, hstep⟩ |
      ⟨hd, hc, hlt, hstep⟩ | ⟨hd, hc, hr, hstep⟩ | ⟨hd, hc, hr, hstep⟩ <;>
      (rw [hstep] at h; try dsimp only at h)
    · exact .inl ⟨r2, h, hcpu⟩
    · rw [alookup_updA_self, alookup_updA_self, alookup_ensure_self] at h
      simp only [Option.map_some', Option.some.injEq] at h
      right
      refine ⟨rfl, hc, ?_⟩
      have h3 : r2.cpu = some (Series.load kv.2).detail := by
        rw [← h]
      rw [h3] at hcpu
      exact (Option.some.inj hcpu).symm
    · rw [alookup_updA_self, alookup_ensure_self] at h
      simp only [Option.map_some', Option.some.injEq] at h
      right
      refine ⟨rfl, hc, ?_⟩
      have h3 : r2.cpu = some (Series.load kv.2).detail := by
        rw [← h]
      rw [h3] at hcpu
      exact (Option.some.inj hcpu).symm
    · rw [alookup_updA_self, alookup_ensure_self] at h
      simp only [Option.map_some', Option.some.injEq] at h
      cases hacc : alookup acc.res (derivedPid kv.1) with
      | some r =>
        left
        refine ⟨r, rfl, ?_⟩
        rw [hacc] at h
        rw [← h] at hcpu
        exact hcpu
      | none =>
        rw [hacc] at h
        rw [← h] at hcpu
        simp [mkProcessRec] at hcpu
    · rw [alookup_ensure_self] at h
      simp only [Option.some.injEq] at h
      cases hacc : alookup acc.res (derivedPid kv.1) with
      | some r =>
        left
        refine ⟨r, rfl, ?_⟩
        rw [hacc] at h
        rw [← h] at hcpu
        exact hcpu
      | none =>
        rw [hacc] at h
        rw [← h] at hcpu
        simp [mkProcessRec] at hcpu

theorem step_rss_origin (m : ProcessModel) (acc : GtAcc)
    (kv : String × SeriesModel) (p : String) (r2 : ProcessRec) (d : Detail)
    (h : alookup (get_tracking_step m acc kv).res p = some r2)
    (hrss : r2.rss = some d) :
    (∃ r, alookup acc.res p = some r ∧ r.rss = some d) ∨
      (derivedPid kv.1 = p ∧ derivedSuffix kv.1 = "rss" ∧
        d = (Series.load kv.2).detail) := by
  by_cases hp : p = derivedPid kv.1
  case neg =>
    left
    refine ⟨r2, ?_, hrss⟩
    rw [← step_lookup_ne m acc kv p hp]
    exact h
  case pos =>
    subst hp
    rcases step_cases m acc kv with ⟨hd, hstep⟩ | ⟨hd, hc, hlt, hstep⟩ |
      ⟨hd, hc, hlt, hstep⟩ | ⟨hd, hc, hr, hstep⟩ | ⟨hd, hc, hr, hstep⟩ <;>
      (rw [hstep] at h; try dsimp only at h)
    · exact .inl ⟨r2, h, hrss⟩
    · rw [alookup_updA_self, alookup_updA_self, alookup_ensure_self] at h
      simp only [Option.map_some', Option.some.injEq] at h
      cases hacc : alookup acc.res (derivedPid kv.1) with
      | some r =>
        left
        refine ⟨r, rfl, ?_⟩
        rw [hacc] at h
        rw [← h] at hrss
        exact hrss
      | none =>
        rw [hacc] at h
        rw [← h] at hrss
        simp [mkProcessRec] at hrss
    · rw [alookup_updA_self, alookup_ensure_self] at h
      simp only [Option.map_some', Option.some.injEq] at h
      cases hacc : alookup acc.res (derivedPid kv.1) with
      | some r =>
        left
        refine ⟨r, rfl, ?_⟩
        rw [hacc] at h
        rw [← h] at hrss
        exact hrss
      | none =>
        rw [hacc] at h
        rw [← h] at hrss
        simp [mkProcessRec] at hrss
    · rw [alookup_updA_self, alookup_ensure_self] at h
      simp only [Option.map_some', Option.some.injEq] at h
      right
      refine ⟨rfl, hr, ?_⟩
      have h3 : r2.rss = some (Series.load kv.2).detail := by
        rw [← h]
      rw [h3] at hrss
      exact (Option.some.inj hrss).symm
    · rw [alookup_ensure_self] at h
      simp only [Option.some.injEq] at h
      cases hacc : alookup acc.res (derivedPid kv.1) with
      | some r =>
        left
        refine ⟨r, rfl, ?_⟩
        rw [hacc] at h
        rw [← h] at hrss
        exact hrss
      | none =>
        rw [hacc] at h
        rw [← h] at hrss
        simp [mkProcessRec] at hrss

theorem fold_zero_mem (m : ProcessModel) (l : List (String × SeriesModel))
    (acc : GtAcc) (p : String) :
    p ∈ (l.foldl (get_tracking_step m) acc).zero ↔
      p ∈ acc.zero ∨ ∃ kv ∈ l, zeroHit m p kv := by
  induction l generalizing acc with
  | nil => simp
  | cons kv l ih =>
    rw [List.foldl_cons, ih, step_zero_mem]
    constructor
    · rintro ((hz | hz) | ⟨kv2, hkv2, hz⟩)
      · exact .inl hz
      · exact .inr ⟨kv, List.mem_cons_self _ _, hz⟩
      · exact .inr ⟨kv2, List.mem_cons_of_mem _ hkv2, hz⟩
    · rintro (hz | ⟨kv2, hkv2, hz⟩)
      · exact .inl (.inl hz)
      · rcases List.mem_cons.1 hkv2 with h1 | h1
        · exact .inl (.inr (h1 ▸ hz))
        · exact .inr ⟨kv2, h1, hz⟩

theorem fold_hasKey (m : ProcessModel) (l : List (String × SeriesModel))
    (acc : GtAcc) (p : String) :
    hasKey (l.foldl (get_tracking_step m) acc).res p = true ↔
      hasKey acc.res p = true ∨
        ∃ kv ∈ l, derivedPid kv.1 = p ∧ (deadOf m p).truthy = false := by
  induction l generalizing acc with
  | nil => simp
  | cons kv l ih =>
    rw [List.foldl_cons, ih, step_hasKey]
    constructor
    · rintro ((hz | hz) | ⟨kv2, hkv2, hz⟩)
      · exact .inl hz
      · exact .inr ⟨kv, List.mem_cons_self _ _, hz⟩
      · exact .inr ⟨kv2, List.mem_cons_of_mem _ hkv2, hz⟩
    · rintro (hz | ⟨kv2, hkv2, hz⟩)
      · exact .inl (.inl hz)
      · rcases List.mem_cons.1 hkv2 with h1 | h1
        · exact .inl (.inr (h1 ▸ hz))
        · exact .inr ⟨kv2, h1, hz⟩

theorem fold_pid_coherent (m : ProcessModel) (l : List (String × SeriesModel))
    (acc : GtAcc)
    (h : ∀ kr ∈ acc.res, (kr.2 : ProcessRec).process_id = kr.1) :
    ∀ kr ∈ (l.foldl (get_tracking_step m) acc).res,
      (kr.2 : ProcessRec).process_id = kr.1 := by
  induction l generalizing acc with
  | nil => exact h
  | cons kv l ih =>
    rw [List.foldl_cons]
    exact ih _ (step_pid_coherent m acc kv h)

theorem fold_nodup (m : ProcessModel) (l : List (String × SeriesModel))
    (acc : GtAcc) (h : (acc.res.map Prod.fst).Nodup) :
    (((l.foldl (get_tracking_step m) acc).res).map Prod.fst).Nodup := by
  induction l generalizing acc with
  | nil => exact h
  | cons kv l ih =>
    rw [List.foldl_cons]
    exact ih _ (step_nodup m acc kv h)

theorem fold_dead_inv (m : ProcessModel) (l : List (String × SeriesModel))
    (acc : GtAcc) (h : ∀ kr ∈ acc.res, (deadOf m kr.1).truthy = false) :
    ∀ kr ∈ (l.foldl (get_tracking_step m) acc).res,
      (deadOf m kr.1).truthy = false := by
  induction l generalizing acc with
  | nil => exact h
  | cons kv l ih =>
    rw [List.foldl_cons]
    exact ih _ (step_dead_inv m acc kv h)

theorem fold_mono (m : ProcessModel) (l : List (String × SeriesModel))
    (acc : GtAcc) (p : String) (r : ProcessRec)
    (h : alookup acc.res p = some r) :
    ∃ r2, alookup (l.foldl (get_tracking_step m) acc).res p = some r2 ∧
      r2.process_id = r.process_id ∧
      (r.is_zero_cpu = true → r2.is_zero_cpu = true) ∧
      (r.cpu.isSome = true → r2.cpu.isSome = true) ∧
      (r.rss.isSome = true → r2.rss.isSome = true) := by
  induction l generalizing acc r with
  | nil => exact ⟨r, h, rfl, fun hh => hh, fun hh => hh, fun hh => hh⟩
  | cons kv l ih =>
    rw [List.foldl_cons]
    rcases step_mono m acc kv p r h with ⟨r1, h1, hpid1, hz1, hc1, hr1⟩
    rcases ih _ r1 h1 with ⟨r2, h2, hpid2, hz2, hc2, hr2⟩
    exact ⟨r2, h2, hpid2.trans hpid1, fun hh => hz2 (hz1 hh),
      fun hh => hc2 (hc1 hh), fun hh => hr2 (hr1 hh)⟩

theorem fold_cpu_set (m : ProcessModel) (l : List (String × SeriesModel))
    (acc : GtAcc) (kv : String × SeriesModel) (hkv : kv ∈ l)
    (hc : derivedSuffix kv.1 = "cpu")
    (hd : (deadOf m (derivedPid kv.1)).truthy = false) :
    ∃ r2, alookup (l.foldl (get_tracking_step m) acc).res (derivedPid kv.1)
        = some r2 ∧ r2.cpu.isSome = true ∧
      (kv.2.mean < ALMOST_ZERO → r2.is_zero_cpu = true) := by
  induction l generalizing acc with
  | nil => simp at hkv
  | cons kv0 l ih =>
    rw [List.foldl_cons]
    rcases List.mem_cons.1 hkv with h1 | h1
    · subst h1
      rcases step_cpu_set m acc kv hc hd with ⟨r1, hl1, hcpu1, hz1⟩
      rcases fold_mono m l _ _ r1 hl1 with ⟨r2, h2, hpid2, hz2, hc2, hr2⟩
      refine ⟨r2, h2, hc2 (by rw [hcpu1]; rfl), fun hlt => hz2 (hz1 hlt)⟩
    · exact ih _ h1

theorem fold_rss_set (m : ProcessModel) (l : List (String × SeriesModel))
    (acc : GtAcc) (kv : String × SeriesModel) (hkv : kv ∈ l)
    (hr : derivedSuffix kv.1 = "rss")
    (hd : (deadOf m (derivedPid kv.1)).truthy = false) :
    ∃ r2, alookup (l.foldl (get_tracking_step m) acc).res (derivedPid kv.1)
        = some r2 ∧ r2.rss.isSome = true := by
  induction l generalizing acc with
  | nil => simp at hkv
  | cons kv0 l ih =>
    rw [List.foldl_cons]
    rcases List.mem_cons.1 hkv with h1 | h1
    · subst h1
      rcases step_rss_set m acc kv hr hd with ⟨r1, hl1, hrss1⟩
      rcases fold_mono m l _ _ r1 hl1 with ⟨r2, h2, hpid2, hz2, hc2, hr2⟩
      exact ⟨r2, h2, hr2 (by rw [hrss1]; rfl)⟩
    · exact ih _ h1

theorem fold_cpu_origin (m : ProcessModel) (l : List (String × SeriesModel))
    (acc : GtAcc) (p : String) (r2 : ProcessRec) (d : Detail)
    (h : alookup (l.foldl (get_tracking_step m) acc).res p = some r2)
    (hcpu : r2.cpu = some d) :
    (∃ r, alookup acc.res p = some r ∧ r.cpu = some d) ∨
      ∃ kv ∈ l, derivedPid kv.1 = p ∧ derivedSuffix kv.1 = "cpu" ∧
        d = (Series.load kv.2).detail := by
  induction l generalizing acc with
  | nil => exact .inl ⟨r2, h, hcpu⟩
  | cons kv0 l ih =>
    rw [List.foldl_cons] at h
    rcases ih _ h with ⟨r, h1, hcpu1⟩ | ⟨kv, hkv, hh⟩
    · rcases step_cpu_origin m acc kv0 p r d h1 hcpu1 with ⟨r0, h0, hcpu0⟩ | hh
      · exact .inl ⟨r0, h0, hcpu0⟩
      · exact .inr ⟨kv0, List.mem_cons_self _ _, hh⟩
    · exact .inr ⟨kv, List.mem_cons_of_mem _ hkv, hh⟩

theorem fold_rss_origin (m : ProcessModel) (l : List (String × SeriesModel))
    (acc : GtAcc) (p : String) (r2 : ProcessRec) (d : Detail)
    (h : alookup (l.foldl (get_tracking_step m) acc).res p = some r2)
    (hrss : r2.rss = some d) :
    (∃ r, alookup acc.res p = some r ∧ r.rss = some d) ∨
      ∃ kv ∈ l, derivedPid kv.1 = p ∧ derivedSuffix kv.1 = "rss" ∧
        d = (Series.load kv.2).detail := by
  induction l generalizing acc with
  | nil => exact .inl ⟨r2, h, hrss⟩
  | cons kv0 l ih =>
    rw [List.foldl_cons] at h
    rcases ih _ h with ⟨r, h1, hrss1⟩ | ⟨kv, hkv, hh⟩
    · rcases step_rss_origin m acc kv0 p r d h1 hrss1 with ⟨r0, h0, hrss0⟩ | hh
      · exact .inl ⟨r0, h0, hrss0⟩
      · exact .inr ⟨kv0, List.mem_cons_self _ _, hh⟩
    · exact .inr ⟨kv, List.mem_cons_of_mem _ hkv, hh⟩

theorem mem_insortDesc {α : Type} (key : α → ℚ) (x : α) (l : List α) (y : α) :
    y ∈ insortDesc key x l ↔ y = x ∨ y ∈ l := by
  induction l with
  | nil => simp [insortDesc]
  | cons z l ih =>
    unfold insortDesc
    split_ifs with h
    · simp only [List.mem_cons]
      try tauto
    · simp only [List.mem_cons, ih]
      try tauto

theorem mem_pySortDesc {α : Type} (key : α → ℚ) (l : List α) (y : α) :
    y ∈ pySortDesc key l ↔ y ∈ l := by
  induction l with
  | nil => simp [pySortDesc]
  | cons z l ih =>
    unfold pySortDesc
    rw [mem_insortDesc]
    simp only [List.mem_cons, ih]

theorem pairwise_insortDesc {α : Type} (key : α → ℚ) (x : α) (l : List α)
    (h : l.Pairwise (fun a b => key b ≤ key a)) :
    (insortDesc key x l).Pairwise (fun a b => key b ≤ key a) := by
  induction l with
  | nil => simp [insortDesc]
  | cons z l ih =>
    rw [List.pairwise_cons] at h
    unfold insortDesc
    split_ifs with hle
    · rw [List.pairwise_cons]
      refine ⟨?_, ?_⟩
      · intro b hb
        rcases List.mem_cons.1 hb with rfl | hb2
        · exact hle
        · exact (h.1 b hb2).trans hle
      · rw [List.pairwise_cons]
        exact h
    · rw [List.pairwise_cons]
      refine ⟨?_, ih h.2⟩
      intro b hb
      rcases (mem_insortDesc key x l b).1 hb with rfl | hb2
      · exact le_of_lt (not_le.mp hle)
      · exact h.1 b hb2

theorem pairwise_pySortDesc {α : Type} (key : α → ℚ) (l : List α) :
    (pySortDesc key l).Pairwise (fun a b => key b ≤ key a) := by
  induction l with
  | nil => simp [pySortDesc]
  | cons z l ih =>
    unfold pySortDesc
    exact pairwise_insortDesc key z _ ih

theorem length_insortDesc {α : Type} (key : α → ℚ) (x : α) (l : List α) :
    (insortDesc key x l).length = l.length + 1 := by
  induction l with
  | nil => simp [insortDesc]
  | cons z l ih =>
    unfold insortDesc
    split_ifs with h
    · simp
    · simp [ih]

theorem length_pySortDesc {α : Type} (key : α → ℚ) (l : List α) :
    (pySortDesc key l).length = l.length := by
  induction l with
  | nil => simp [pySortDesc]
  | cons z l ih =>
    unfold pySortDesc
    rw [length_insortDesc, ih, List.length_cons]

theorem sortKey_nameCpu (r : ProcessRec) : sortKey (nameCpu r) = sortKey r := by
  cases hc : r.cpu <;> simp [nameCpu, sortKey, hc]

theorem filterMap_length_of_all {α β : Type} (f : α → Option β) (l : List α)
    (h : ∀ x ∈ l, (f x).isSome = true) :
    (l.filterMap f).length = l.length := by
  induction l with
  | nil => simp
  | cons z l ih =>
    have hz := h z (List.mem_cons_self _ _)
    cases hf : f z with
    | none => rw [hf] at hz; simp at hz
    | some b =>
      rw [List.filterMap_cons, hf]
      simp only [List.length_cons]
      rw [ih (fun x hx => h x (List.mem_cons_of_mem _ hx))]

theorem get_tracking_ok (m : ProcessModel) (ret : List ProcessRec)
    (summary : List Detail) (m2 : ProcessModel)
    (h : ProcessAnalysis.get_tracking m = .ok (ret, summary, m2)) :
    (((m.tracking.foldl (get_tracking_step m) ⟨[], []⟩).res.filter fun kv =>
        !(kv.2.is_zero_cpu || kv.2.cpu.isNone || kv.2.rss.isNone)).map
          Prod.snd).any (fun r => (sortKeyOpt r).isNone) = false ∧
    ret = ((pySortDesc sortKey
        (((m.tracking.foldl (get_tracking_step m) ⟨[], []⟩).res.filter fun kv =>
          !(kv.2.is_zero_cpu || kv.2.cpu.isNone || kv.2.rss.isNone)).map
            Prod.snd)).take 5).map nameCpu ++
      (pySortDesc sortKey
        (((m.tracking.foldl (get_tracking_step m) ⟨[], []⟩).res.filter fun kv =>
          !(kv.2.is_zero_cpu || kv.2.cpu.isNone || kv.2.rss.isNone)).map
            Prod.snd)).drop 5 ∧
    summary = (ret.take 5).filterMap (fun r => r.cpu) ∧
    m2 = { m with zero_cpu_processes :=
      (m.tracking.foldl (get_tracking_step m) ⟨[], []⟩).zero.map fun p =>
        (p, (alookup (m.tracking.foldl (get_tracking_step m) ⟨[], []⟩).res
          p).getD (mkProcessRec m p (.num 0))) } := by
  have hbool : ∀ (b : Bool), ¬ b = true → b = false := by decide
  simp only [ProcessAnalysis.get_tracking] at h
  split_ifs at h with hc
  rw [Except.ok.injEq, Prod.mk.injEq, Prod.mk.injEq] at h
  obtain ⟨h1, h2, h3⟩ := h
  exact ⟨hbool _ hc, h1.symm, by rw [← h2, ← h1], h3.symm⟩

theorem get_zero_ok (m : ProcessModel) (out : List ProcessRec)
    (h : ProcessAnalysis.get_zero_cpu_processes m = .ok out) :
    ((m.zero_cpu_processes.filter fun kv =>
        !(kv.2.cpu.isNone || kv.2.rss.isNone)).map Prod.snd).any
          (fun r => (sortKeyOpt r).isNone) = false ∧
    out = pySortDesc sortKey ((m.zero_cpu_processes.filter fun kv =>
        !(kv.2.cpu.isNone || kv.2.rss.isNone)).map Prod.snd) := by
  have hbool : ∀ (b : Bool), ¬ b = true → b = false := by decide
  simp only [ProcessAnalysis.get_zero_cpu_processes] at h
  split_ifs at h with hc
  rw [Except.ok.injEq] at h
  exact ⟨hbool _ hc, h.symm⟩

theorem mem_filter_snd {α : Type} {p : String × α → Bool}
    {l : List (String × α)} {r : α}
    (h : r ∈ (l.filter p).map Prod.snd) :
    ∃ k, (k, r) ∈ l ∧ p (k, r) = true := by
  rcases List.mem_map.1 h with ⟨⟨k, v⟩, hv, hr⟩
  rw [List.mem_filter] at hv
  have hr2 : v = r := hr
  subst hr2
  exact ⟨k, hv.1, hv.2⟩

theorem mem_filter_snd_of {α : Type} {p : String × α → Bool}
    {l : List (String × α)} {r : α} {k : String}
    (hm : (k, r) ∈ l) (hp : p (k, r) = true) :
    r ∈ (l.filter p).map Prod.snd :=
  List.mem_map.2 ⟨(k, r), List.mem_filter.2 ⟨hm, hp⟩, rfl⟩

theorem mem_retNamed {l : List ProcessRec} {r : ProcessRec}
    (h : r ∈ (l.take 5).map nameCpu ++ l.drop 5) :
    ∃ r0 ∈ l, r.process_id = r0.process_id ∧ r.is_zero_cpu = r0.is_zero_cpu ∧
      r.cpu.isSome = r0.cpu.isSome ∧ r.rss = r0.rss ∧ r.name = r0.name := by
  rcases List.mem_append.1 h with h1 | h1
  · rcases List.mem_map.1 h1 with ⟨r0, hr0, hr⟩
    subst hr
    refine ⟨r0, List.mem_of_mem_take hr0, rfl, rfl, ?_, rfl, rfl⟩
    cases hc : r0.cpu <;> simp [nameCpu, hc]
  · exact ⟨r, List.mem_of_mem_drop h1, rfl, rfl, rfl, rfl, rfl⟩

theorem take5_retNamed (l : List ProcessRec) :
    ((l.take 5).map nameCpu ++ l.drop 5).take 5 = (l.take 5).map nameCpu := by
  rw [List.take_append_eq_append_take]
  have hlen : ((l.take 5).map nameCpu).length = min 5 l.length := by
    simp
  rcases le_or_lt 5 l.length with h5 | h5
  · have h1 : ((l.take 5).map nameCpu).length = 5 := by
      rw [hlen]
      exact min_eq_left h5
    rw [List.take_of_length_le (le_of_eq h1), h1]
    simp
  · have h1 : l.drop 5 = [] := List.drop_eq_nil_of_le (le_of_lt h5)
    rw [h1]
    simp

theorem alookup_map_mk {β : Type} (zs : List String) (g : String → β)
    (q : String) :
    alookup (zs.map fun p => (p, g p)) q =
      if q ∈ zs then some (g q) else none := by
  induction zs with
  | nil => simp [alookup]
  | cons z zs ih =>
    by_cases h : z = q
    · subst h
      simp [alookup, ih]
    · have h2 : ¬ q = z := fun hh => h hh.symm
      simp only [List.map_cons, alookup, if_neg h, ih, List.mem_cons]
      simp [h2]

/-- C3: a process whose `dead` attribute is truthy contributes no record
to the ranked list returned by `get_tracking`, and every summary entry is
the cpu detail of a ranked record of a different process. -/
theorem claim_C3 (m : ProcessModel) (pid : String)
    (hdead : (deadOf m pid).truthy = true)
    (ret : List ProcessRec) (summary : List Detail) (m2 : ProcessModel)
    (hok : ProcessAnalysis.get_tracking m = .ok (ret, summary, m2)) :
    (∀ r ∈ ret, r.process_id ≠ pid) ∧
      ∀ d ∈ summary, ∃ r ∈ ret, r.cpu = some d ∧ r.process_id ≠ pid := by
  obtain ⟨herr, hret, hsum, hm2⟩ := get_tracking_ok m ret summary m2 hok
  have hmain : ∀ r ∈ ret, r.process_id ≠ pid := by
    intro r hr
    rw [hret] at hr
    rcases mem_retNamed hr with ⟨r0, hr0, hpid0, -, -, -, -⟩
    rw [mem_pySortDesc] at hr0
    rcases mem_filter_snd hr0 with ⟨k, hk, -⟩
    have hco := fold_pid_coherent m m.tracking ⟨[], []⟩
      (fun kr hkr => absurd hkr (by simp)) (k, r0) hk
    have hdd := fold_dead_inv m m.tracking ⟨[], []⟩
      (fun kr hkr => absurd hkr (by simp)) (k, r0) hk
    rw [hpid0, hco]
    intro hkp
    rw [hkp] at hdd
    rw [hdd] at hdead
    exact Bool.false_ne_true hdead
  refine ⟨hmain, ?_⟩
  intro d hd
  rw [hsum] at hd
  rw [List.mem_filterMap] at hd
  rcases hd with ⟨r, hr, hcpu⟩
  exact ⟨r, List.mem_of_mem_take hr, hcpu,
    hmain r (List.mem_of_mem_take hr)⟩

theorem claim_C3_witness :
    (∀ r ∈ [busyRetRec], r.process_id ≠ "process.d") ∧
      ∀ d ∈ [busyCpuDetail], ∃ r ∈ [busyRetRec],
        r.cpu = some d ∧ r.process_id ≠ "process.d" :=
  claim_C3 exampleDead "process.d" (by decide) [busyRetRec] [busyCpuDetail]
    exampleDead (by decide)

/-- C8: `get_process` succeeds exactly when a `name` attribute is
recorded (failing with `KeyError`, a not-found condition, otherwise), and
on success every other attribute is filled from its map with an
empty/zero default. -/
theorem claim_C8 (m : ProcessModel) (pid : String) :
    (ProcessAnalysis.get_process m pid).isOk = hasKey m.names pid ∧
    ∀ pd, ProcessAnalysis.get_process m pid = .ok pd →
      pd.name = alookupD m.names pid (.str "") ∧
      pd.create_time = alookupD m.create_times pid (.num 0) ∧
      pd.cmdline = alookupD m.cmdlines pid (.str "") ∧
      pd.exe = alookupD m.exes pid (.str "") ∧
      pd.pid = alookupD m.pids pid (.num 0) ∧
      pd.ppid = alookupD m.ppids pid (.num 0) ∧
      pd.dead = alookupD m.dead pid (.num 0) := by
  cases hn : alookup m.names pid with
  | none =>
    constructor
    · simp [ProcessAnalysis.get_process, hn, hasKey, Except.isOk, Except.toBool]
    · intro pd hpd
      simp [ProcessAnalysis.get_process, hn] at hpd
  | some nm =>
    constructor
    · simp [ProcessAnalysis.get_process, hn, hasKey, Except.isOk, Except.toBool]
    · intro pd hpd
      simp only [ProcessAnalysis.get_process, hn] at hpd
      rw [Except.ok.injEq] at hpd
      rw [← hpd]
      exact ⟨by simp [alookupD, hn], rfl, rfl, rfl, rfl, rfl, rfl⟩

theorem claim_C8_witness :
    ((ProcessAnalysis.get_process exampleNamed "process.a").isOk
        = hasKey exampleNamed.names "process.a" ∧
      (ProcessAnalysis.get_process ProcessModel.defaults "nope").isOk
        = hasKey ProcessModel.defaults.names "nope") ∧
    namedDetail.name = alookupD exampleNamed.names "process.a" (.str "") ∧
    namedDetail.create_time
        = alookupD exampleNamed.create_times "process.a" (.num 0) ∧
    namedDetail.cmdline = alookupD exampleNamed.cmdlines "process.a" (.str "") ∧
    namedDetail.exe = alookupD exampleNamed.exes "process.a" (.str "") ∧
    namedDetail.pid = alookupD exampleNamed.pids "process.a" (.num 0) ∧
    namedDetail.ppid = alookupD exampleNamed.ppids "process.a" (.num 0) ∧
    namedDetail.dead = alookupD exampleNamed.dead "process.a" (.num 0) :=
  ⟨⟨(claim_C8 exampleNamed "process.a").1,
    (claim_C8 ProcessModel.defaults "nope").1⟩,
   (claim_C8 exampleNamed "process.a").2 namedDetail (by decide)⟩

theorem retFilter_true {r : ProcessRec}
    (hp : (!(r.is_zero_cpu || r.cpu.isNone || r.rss.isNone)) = true) :
    r.is_zero_cpu = false ∧ r.cpu.isSome = true ∧ r.rss.isSome = true := by
  cases hz : r.is_zero_cpu <;> cases hc : r.cpu <;> cases hr : r.rss <;>
    simp_all

/-- C4: the ranked list is sorted descending by the last smoothed cpu
value, the summary is exactly the cpu details of the first `min 5 length`
ranked records, and each of those details carries the process name. -/
theorem claim_C4 (m : ProcessModel) (ret : List ProcessRec)
    (summary : List Detail) (m2 : ProcessModel)
    (hok : ProcessAnalysis.get_tracking m = .ok (ret, summary, m2)) :
    ret.Pairwise (fun a b => sortKey b ≤ sortKey a) ∧
    summary = (ret.take 5).filterMap (fun r => r.cpu) ∧
    summary.length = min 5 ret.length ∧
    ∀ r ∈ ret.take 5, ∃ d, r.cpu = some d ∧ d.name = some r.name := by
  obtain ⟨herr, hret, hsum, hm2⟩ := get_tracking_ok m ret summary m2 hok
  have hp1 := pairwise_pySortDesc sortKey
    (((m.tracking.foldl (get_tracking_step m) ⟨[], []⟩).res.filter fun kv =>
      !(kv.2.is_zero_cpu || kv.2.cpu.isNone || kv.2.rss.isNone)).map Prod.snd)
  have hsplit := (List.take_append_drop 5 (pySortDesc sortKey
    (((m.tracking.foldl (get_tracking_step m) ⟨[], []⟩).res.filter fun kv =>
      !(kv.2.is_zero_cpu || kv.2.cpu.isNone || kv.2.rss.isNone)).map
        Prod.snd))).symm
  rw [hsplit, List.pairwise_append] at hp1
  obtain ⟨hA, hB, hAB⟩ := hp1
  have hall : ∀ r ∈ ret, r.cpu.isSome = true := by
    intro r hr
    rw [hret] at hr
    rcases mem_retNamed hr with ⟨r0, hr0, -, -, hcs, -, -⟩
    rw [mem_pySortDesc] at hr0
    rcases mem_filter_snd hr0 with ⟨k, -, hpred⟩
    rw [hcs]
    exact (retFilter_true hpred).2.1
  refine ⟨?_, hsum, ?_, ?_⟩
  · rw [hret, List.pairwise_append]
    refine ⟨?_, hB, ?_⟩
    · rw [List.pairwise_map]
      simp only [sortKey_nameCpu]
      exact hA
    · intro a ha b hb
      rcases List.mem_map.1 ha with ⟨a0, ha0, haa⟩
      rw [← haa, sortKey_nameCpu]
      exact hAB a0 ha0 b hb
  · rw [hsum, filterMap_length_of_all _ _
      (fun r hr => hall r (List.mem_of_mem_take hr)), List.length_take]
  · intro r hr
    rw [hret, take5_retNamed] at hr
    rcases List.mem_map.1 hr with ⟨r0, hr0, hrr⟩
    have hr0s := List.mem_of_mem_take hr0
    rw [mem_pySortDesc] at hr0s
    rcases mem_filter_snd hr0s with ⟨k, -, hpred⟩
    rcases Option.isSome_iff_exists.1 (retFilter_true hpred).2.1 with ⟨d0, hd0⟩
    have hd0b : r0.cpu = some d0 := hd0
    refine ⟨{ d0 with name := some r0.name }, ?_, ?_⟩
    · rw [← hrr]
      simp only [nameCpu, hd0b, Option.map_some']
    · rw [← hrr]
      rfl

theorem claim_C4_witness :
    ([busyRetRec, midRetRec] : List ProcessRec).Pairwise
        (fun a b => sortKey b ≤ sortKey a) ∧
    [busyCpuDetail, midCpuDetail] =
      (([busyRetRec, midRetRec] : List ProcessRec).take 5).filterMap
        (fun r => r.cpu) ∧
    ([busyCpuDetail, midCpuDetail] : List Detail).length
        = min 5 ([busyRetRec, midRetRec] : List ProcessRec).length ∧
    ∀ r ∈ ([busyRetRec, midRetRec] : List ProcessRec).take 5,
      ∃ d, r.cpu = some d ∧ d.name = some r.name :=
  claim_C4 exampleRanked [busyRetRec, midRetRec]
    [busyCpuDetail, midCpuDetail] exampleRankedOut (by decide)

theorem zeroFilter_true {r : ProcessRec}
    (hp : (!(r.cpu.isNone || r.rss.isNone)) = true) :
    r.cpu.isSome = true ∧ r.rss.isSome = true := by
  cases hc : r.cpu <;> cases hr : r.rss <;> simp_all

theorem zeroFilter_mk {r : ProcessRec} (hc : r.cpu.isSome = true)
    (hr : r.rss.isSome = true) : (!(r.cpu.isNone || r.rss.isNone)) = true := by
  cases hco : r.cpu <;> cases hro : r.rss <;> simp_all

theorem ret_mem (m : ProcessModel) {r : ProcessRec}
    (hr : r ∈ ((pySortDesc sortKey
        (((m.tracking.foldl (get_tracking_step m) ⟨[], []⟩).res.filter fun kv =>
          !(kv.2.is_zero_cpu || kv.2.cpu.isNone || kv.2.rss.isNone)).map
            Prod.snd)).take 5).map nameCpu ++
      (pySortDesc sortKey
        (((m.tracking.foldl (get_tracking_step m) ⟨[], []⟩).res.filter fun kv =>
          !(kv.2.is_zero_cpu || kv.2.cpu.isNone || kv.2.rss.isNone)).map
            Prod.snd)).drop 5) :
    ∃ r0, alookup (m.tracking.foldl (get_tracking_step m) ⟨[], []⟩).res
        r.process_id = some r0 ∧ r0.process_id = r.process_id ∧
      r0.is_zero_cpu = false ∧ r0.cpu.isSome = true ∧ r0.rss.isSome = true ∧
      r.cpu.isSome = r0.cpu.isSome ∧ r.rss = r0.rss := by
  rcases mem_retNamed hr with ⟨r0, hr0, hpid, hzq, hcs, hrs, hn⟩
  rw [mem_pySortDesc] at hr0
  rcases mem_filter_snd hr0 with ⟨k, hk, hpred⟩
  obtain ⟨hz0, hc0, hr0s⟩ := retFilter_true hpred
  have hco := fold_pid_coherent m m.tracking ⟨[], []⟩
    (fun kr hkr => absurd hkr (by simp)) (k, r0) hk
  have hnd := fold_nodup m m.tracking ⟨[], []⟩ (by simp)
  have hlk := mem_alookup_nodup hnd hk
  have hco2 : r0.process_id = k := hco
  refine ⟨r0, ?_, by rw [hpid], hz0, hc0, hr0s, hcs, hrs⟩
  rw [hpid, hco2]
  exact hlk

theorem zcache_mem (m : ProcessModel) {p : String} {r : ProcessRec}
    (hmem : (p, r) ∈ (m.tracking.foldl (get_tracking_step m) ⟨[], []⟩).zero.map
      (fun q => (q, (alookup (m.tracking.foldl (get_tracking_step m)
        ⟨[], []⟩).res q).getD (mkProcessRec m q (.num 0))))) :
    (∃ kv ∈ m.tracking, zeroHit m p kv) ∧
      alookup (m.tracking.foldl (get_tracking_step m) ⟨[], []⟩).res p
        = some r ∧ r.process_id = p := by
  rcases List.mem_map.1 hmem with ⟨q, hq, heq⟩
  rw [Prod.mk.injEq] at heq
  obtain ⟨hqp, hval⟩ := heq
  rw [hqp] at hq hval
  have hfz := (fold_zero_mem m m.tracking ⟨[], []⟩ p).1 hq
  simp only [show (GtAcc.mk [] []).zero = [] from rfl, List.not_mem_nil,
    false_or] at hfz
  rcases hfz with ⟨kv, hkv, hzh⟩
  have hhk : hasKey (m.tracking.foldl (get_tracking_step m) ⟨[], []⟩).res p
      = true := by
    rw [fold_hasKey]
    exact .inr ⟨kv, hkv, hzh.1, hzh.2.2.2⟩
  rw [hasKey] at hhk
  rcases Option.isSome_iff_exists.1 hhk with ⟨rf, hrf⟩
  have hrfr : r = rf := by
    rw [← hval, hrf]
    rfl
  subst hrfr
  refine ⟨⟨kv, hkv, hzh⟩, hrf, ?_⟩
  exact fold_pid_coherent m m.tracking ⟨[], []⟩
    (fun kr hkr => absurd hkr (by simp)) (p, r) (alookup_mem hrf)

/-- C6: every `get_tracking` call replaces the zero-activity cache
wholesale with the map computed in that pass: a process id is cached iff
some stored series entry of the current pass found it zero-cpu (non-dead,
cpu-suffixed, mean below `ALMOST_ZERO`); and each cached entry holds the
record computed in this call — keyed by its own id, flagged
`is_zero_cpu`, its cpu detail loaded from a cpu series of the current
tracking state, and its rss detail (when present) loaded from an rss
series of the current tracking state — so entries from before the call
survive only as recomputations, never as stale values. -/
theorem claim_C6 (m : ProcessModel) (ret : List ProcessRec)
    (summary : List Detail) (m2 : ProcessModel)
    (hok : ProcessAnalysis.get_tracking m = .ok (ret, summary, m2))
    (p : String) :
    (hasKey m2.zero_cpu_processes p = true ↔
      ∃ kv ∈ m.tracking, zeroHit m p kv) ∧
    ∀ r, alookup m2.zero_cpu_processes p = some r →
      r.process_id = p ∧ r.is_zero_cpu = true ∧
      (∃ kv ∈ m.tracking, derivedPid kv.1 = p ∧ derivedSuffix kv.1 = "cpu" ∧
        r.cpu = some (Series.load kv.2).detail) ∧
      ∀ d, r.rss = some d →
        ∃ kv ∈ m.tracking, derivedPid kv.1 = p ∧
          derivedSuffix kv.1 = "rss" ∧ d = (Series.load kv.2).detail := by
  obtain ⟨-, -, -, hm2⟩ := get_tracking_ok m ret summary m2 hok
  constructor
  · rw [hm2]
    have hfz := fold_zero_mem m m.tracking ⟨[], []⟩ p
    simp only [show (GtAcc.mk [] []).zero = [] from rfl, List.not_mem_nil,
      false_or] at hfz
    dsimp only
    rw [hasKey, alookup_map_mk]
    constructor
    · intro h
      split_ifs at h with hp
      · exact hfz.1 hp
      · simp at h
    · intro h
      rw [if_pos (hfz.2 h)]
      rfl
  · intro r hr
    have hmem : (p, r) ∈ m2.zero_cpu_processes := alookup_mem hr
    rw [hm2] at hmem
    dsimp only at hmem
    rcases zcache_mem m hmem with ⟨⟨kv, hkv, hzh⟩, hlk, hpidr⟩
    obtain ⟨hzp, hzc, hzm, hzd⟩ := hzh
    have hcpuset := fold_cpu_set m m.tracking ⟨[], []⟩ kv hkv hzc
      (by rw [hzp]; exact hzd)
    rw [hzp] at hcpuset
    rcases hcpuset with ⟨rf, hlkf, hcf, hzf⟩
    have hrrf : r = rf := Option.some.inj (hlk.symm.trans hlkf)
    refine ⟨hpidr, by rw [hrrf]; exact hzf hzm, ?_, ?_⟩
    · rcases Option.isSome_iff_exists.1
        (show r.cpu.isSome = true by rw [hrrf]; exact hcf) with ⟨d, hdc⟩
      rcases fold_cpu_origin m m.tracking ⟨[], []⟩ p r d hlk hdc with
        ⟨ra, hla, -⟩ | ⟨kv2, hkv2, hp2, hs2, hdeq⟩
      · simp [alookup] at hla
      · exact ⟨kv2, hkv2, hp2, hs2, by rw [hdc, hdeq]⟩
    · intro d hdr
      rcases fold_rss_origin m m.tracking ⟨[], []⟩ p r d hlk hdr with
        ⟨ra, hla, -⟩ | ⟨kv2, hkv2, hp2, hs2, hdeq⟩
      · simp [alookup] at hla
      · exact ⟨kv2, hkv2, hp2, hs2, hdeq⟩

theorem claim_C6_witness :
    (hasKey exampleIdleOut.zero_cpu_processes "process.a" = true ↔
      ∃ kv ∈ exampleIdle.tracking, zeroHit exampleIdle "process.a" kv) ∧
    ∀ r, alookup exampleIdleOut.zero_cpu_processes "process.a" = some r →
      r.process_id = "process.a" ∧ r.is_zero_cpu = true ∧
      (∃ kv ∈ exampleIdle.tracking, derivedPid kv.1 = "process.a" ∧
        derivedSuffix kv.1 = "cpu" ∧
        r.cpu = some (Series.load kv.2).detail) ∧
      ∀ d, r.rss = some d →
        ∃ kv ∈ exampleIdle.tracking, derivedPid kv.1 = "process.a" ∧
          derivedSuffix kv.1 = "rss" ∧ d = (Series.load kv.2).detail :=
  claim_C6 exampleIdle [busyRetRec] [busyCpuDetail] exampleIdleOut
    (by decide) "process.a"

/-- C5: every record in the ranked list and in the zero-activity table
has both cpu and rss details; a process with no cpu series in the
current pass contributes a record neither to the ranked list nor to the
cache the zero-activity table then reads. -/
theorem claim_C5 (m : ProcessModel) (ret : List ProcessRec)
    (summary : List Detail) (m2 : ProcessModel)
    (hok : ProcessAnalysis.get_tracking m = .ok (ret, summary, m2))
    (mz : ProcessModel) (zout : List ProcessRec)
    (hzok : ProcessAnalysis.get_zero_cpu_processes mz = .ok zout)
    (pid : String)
    (hnocpu : ∀ kv ∈ m.tracking,
      ¬(derivedPid kv.1 = pid ∧ derivedSuffix kv.1 = "cpu"))
    (zout2 : List ProcessRec)
    (hzok2 : ProcessAnalysis.get_zero_cpu_processes m2 = .ok zout2) :
    (∀ r ∈ ret, r.cpu.isSome = true ∧ r.rss.isSome = true) ∧
    (∀ r ∈ zout, r.cpu.isSome = true ∧ r.rss.isSome = true) ∧
    (∀ r ∈ ret, r.process_id ≠ pid) ∧
    (∀ r ∈ zout2, r.process_id ≠ pid) := by
  obtain ⟨herr, hret, hsum, hm2⟩ := get_tracking_ok m ret summary m2 hok
  refine ⟨?_, ?_, ?_, ?_⟩
  · intro r hr
    rw [hret] at hr
    rcases ret_mem m hr with ⟨r0, -, -, -, hc0, hr0s, hcs, hrs⟩
    rw [hcs, hrs]
    exact ⟨hc0, hr0s⟩
  · intro r hr
    obtain ⟨-, hzeq⟩ := get_zero_ok mz zout hzok
    rw [hzeq, mem_pySortDesc] at hr
    rcases mem_filter_snd hr with ⟨k, -, hpred⟩
    exact zeroFilter_true hpred
  · intro r hr
    rw [hret] at hr
    rcases ret_mem m hr with ⟨r0, hl0, -, -, hc0, -, -, -⟩
    intro hcontra
    rw [hcontra] at hl0
    rcases Option.isSome_iff_exists.1 hc0 with ⟨d, hd⟩
    rcases fold_cpu_origin m m.tracking ⟨[], []⟩ pid r0 d hl0 hd with
      ⟨ra, hla, -⟩ | ⟨kv, hkv, hp1, hp2, -⟩
    · simp [alookup] at hla
    · exact hnocpu kv hkv ⟨hp1, hp2⟩
  · intro r hr
    obtain ⟨-, hzeq⟩ := get_zero_ok m2 zout2 hzok2
    rw [hzeq, mem_pySortDesc] at hr
    rcases mem_filter_snd hr with ⟨k, hk, -⟩
    rw [hm2] at hk
    dsimp only at hk
    rcases zcache_mem m hk with ⟨⟨kv, hkv, hzh⟩, -, hpidr⟩
    rw [hpidr]
    intro hcontra
    rw [hcontra] at hzh
    exact hnocpu kv hkv ⟨hzh.1, hzh.2.1⟩

theorem claim_C5_witness :
    (∀ r ∈ [busyRetRec, midRetRec], r.cpu.isSome = true ∧
      r.rss.isSome = true) ∧
    (∀ r ∈ ([] : List ProcessRec), r.cpu.isSome = true ∧
      r.rss.isSome = true) ∧
    (∀ r ∈ [busyRetRec, midRetRec], r.process_id ≠ "process.c") ∧
    (∀ r ∈ ([] : List ProcessRec), r.process_id ≠ "process.c") :=
  claim_C5 exampleRanked [busyRetRec, midRetRec] [busyCpuDetail, midCpuDetail]
    exampleRankedOut (by decide) exampleRanked [] (by decide)
    "process.c" (by decide) [] (by decide)

/-- C1: a non-dead process whose cpu series has mean below `ALMOST_ZERO`
and whose record carries both cpu and rss series is excluded from the
ranked list and, after that call, included in the zero-activity table. -/
theorem claim_C1 (m : ProcessModel) (pid : String)
    (kc : String) (tc : SeriesModel)
    (hkc : (kc, tc) ∈ m.tracking) (hkc1 : derivedPid kc = pid)
    (hkc2 : derivedSuffix kc = "cpu") (hmean : tc.mean < ALMOST_ZERO)
    (kr : String) (tr : SeriesModel)
    (hkr : (kr, tr) ∈ m.tracking) (hkr1 : derivedPid kr = pid)
    (hkr2 : derivedSuffix kr = "rss")
    (hdead : (deadOf m pid).truthy = false)
    (ret : List ProcessRec) (summary : List Detail) (m2 : ProcessModel)
    (hok : ProcessAnalysis.get_tracking m = .ok (ret, summary, m2))
    (zret : List ProcessRec)
    (hzok : ProcessAnalysis.get_zero_cpu_processes m2 = .ok zret) :
    (∀ r ∈ ret, r.process_id ≠ pid) ∧ ∃ r ∈ zret, r.process_id = pid := by
  obtain ⟨herr, hret, hsum, hm2⟩ := get_tracking_ok m ret summary m2 hok
  have hcpuset := fold_cpu_set m m.tracking ⟨[], []⟩ (kc, tc) hkc hkc2
    (by dsimp only; rw [hkc1]; exact hdead)
  dsimp only at hcpuset
  rw [hkc1] at hcpuset
  rcases hcpuset with ⟨rf, hlkf, hcf, hzf⟩
  have hflag : rf.is_zero_cpu = true := hzf hmean
  have hrssset := fold_rss_set m m.tracking ⟨[], []⟩ (kr, tr) hkr hkr2
    (by dsimp only; rw [hkr1]; exact hdead)
  dsimp only at hrssset
  rw [hkr1] at hrssset
  rcases hrssset with ⟨rf2, hlkf2, hrf2⟩
  have hff : rf = rf2 := Option.some.inj (hlkf.symm.trans hlkf2)
  constructor
  · intro r hr
    rw [hret] at hr
    rcases ret_mem m hr with ⟨r0, hl0, -, hz0, -, -, -, -⟩
    intro hcontra
    rw [hcontra] at hl0
    have hr0f : rf = r0 := Option.some.inj (hlkf.symm.trans hl0)
    rw [← hr0f, hflag] at hz0
    exact absurd hz0 (by decide)
  · obtain ⟨-, hzout⟩ := get_zero_ok m2 zret hzok
    have hzmem : pid ∈ (m.tracking.foldl (get_tracking_step m) ⟨[], []⟩).zero := by
      rw [fold_zero_mem]
      exact .inr ⟨(kc, tc), hkc, hkc1, hkc2, hmean, hdead⟩
    have hcache : (pid, rf) ∈ m2.zero_cpu_processes := by
      rw [hm2]
      dsimp only
      refine List.mem_map.2 ⟨pid, hzmem, ?_⟩
      rw [hlkf]
      rfl
    refine ⟨rf, ?_, ?_⟩
    · rw [hzout, mem_pySortDesc]
      exact mem_filter_snd_of hcache
        (zeroFilter_mk hcf (by rw [hff]; exact hrf2))
    · exact fold_pid_coherent m m.tracking ⟨[], []⟩
        (fun kq hkq => absurd hkq (by simp)) (pid, rf) (alookup_mem hlkf)

theorem claim_C1_witness :
    (∀ r ∈ [busyRetRec], r.process_id ≠ "process.a") ∧
      ∃ r ∈ [idleZeroRec], r.process_id = "process.a" :=
  claim_C1 exampleIdle "process.a" "process.a.cpu" sampleCpuIdle
    (by decide) (by decide) (by decide) (by decide)
    "process.a.rss" sampleRss (by decide) (by decide) (by decide)
    (by decide) [busyRetRec] [busyCpuDetail] exampleIdleOut (by decide)
    [idleZeroRec] (by decide)

/-- C10: every entry of the rebuilt zero-activity cache is the very
record of the live pass: flagged `is_zero_cpu`, carrying a cpu detail,
keyed by its own process id, and carrying an rss detail exactly when an
rss series for that process existed in the same pass. -/
theorem claim_C10 (m : ProcessModel) (ret : List ProcessRec)
    (summary : List Detail) (m2 : ProcessModel)
    (hok : ProcessAnalysis.get_tracking m = .ok (ret, summary, m2))
    (p : String) (r : ProcessRec)
    (hmem : (p, r) ∈ m2.zero_cpu_processes) :
    r.is_zero_cpu = true ∧ r.cpu.isSome = true ∧ r.process_id = p ∧
      (r.rss.isSome = true ↔
        ∃ kv ∈ m.tracking, derivedPid kv.1 = p ∧ derivedSuffix kv.1 = "rss") := by
  obtain ⟨-, -, -, hm2⟩ := get_tracking_ok m ret summary m2 hok
  rw [hm2] at hmem
  dsimp only at hmem
  rcases zcache_mem m hmem with ⟨⟨kv, hkv, hzh⟩, hlk, hpidr⟩
  obtain ⟨hzp, hzc, hzm, hzd⟩ := hzh
  have hcpuset := fold_cpu_set m m.tracking ⟨[], []⟩ kv hkv hzc
    (by rw [hzp]; exact hzd)
  rw [hzp] at hcpuset
  rcases hcpuset with ⟨rf, hlkf, hcf, hzf⟩
  have hrrf : r = rf := Option.some.inj (hlk.symm.trans hlkf)
  refine ⟨by rw [hrrf]; exact hzf hzm, by rw [hrrf]; exact hcf, hpidr, ?_, ?_⟩
  · intro hrs
    rcases Option.isSome_iff_exists.1 hrs with ⟨d, hd⟩
    rcases fold_rss_origin m m.tracking ⟨[], []⟩ p r d hlk hd with
      ⟨ra, hla, -⟩ | ⟨kv2, hkv2, hp2, hs2, -⟩
    · simp [alookup] at hla
    · exact ⟨kv2, hkv2, hp2, hs2⟩
  · rintro ⟨kv2, hkv2, hp2, hs2⟩
    have hrssset := fold_rss_set m m.tracking ⟨[], []⟩ kv2 hkv2 hs2
      (by rw [hp2]; exact hzd)
    rw [hp2] at hrssset
    rcases hrssset with ⟨rf2, hlk2, hrs2⟩
    have : r = rf2 := Option.some.inj (hlk.symm.trans hlk2)
    rw [this]
    exact hrs2

theorem claim_C10_witness :
    idleZeroRec.is_zero_cpu = true ∧ idleZeroRec.cpu.isSome = true ∧
      idleZeroRec.process_id = "process.a" ∧
      (idleZeroRec.rss.isSome = true ↔
        ∃ kv ∈ exampleIdle.tracking, derivedPid kv.1 = "process.a" ∧
          derivedSuffix kv.1 = "rss") :=
  claim_C10 exampleIdle [busyRetRec] [busyCpuDetail] exampleIdleOut
    (by decide) "process.a" idleZeroRec (by decide)

/-- C9: when every stored cpu series has a non-empty smoothed sequence,
`get_tracking` never hits the `IndexError` branch of its sort, and when
every cached cpu detail has a non-empty smoothed sequence the same holds
for `get_zero_cpu_processes`; a state with an empty smoothed cpu
sequence makes `get_tracking` fail instead of returning a result. -/
theorem claim_C9 (m : ProcessModel)
    (hcpu : ∀ kv ∈ m.tracking, derivedSuffix kv.1 = "cpu" →
      kv.2.smoothed ≠ [])
    (mz : ProcessModel)
    (hzz : ∀ kr ∈ mz.zero_cpu_processes,
      ∀ d, (kr.2 : ProcessRec).cpu = some d → d.smoothed ≠ []) :
    (ProcessAnalysis.get_tracking m).isOk = true ∧
    (ProcessAnalysis.get_zero_cpu_processes mz).isOk = true ∧
    ProcessAnalysis.get_tracking exampleEmptySmoothed
      = .error "IndexError: list index out of range" := by
  refine ⟨?_, ?_, by decide⟩
  · have hany : (((m.tracking.foldl (get_tracking_step m) ⟨[], []⟩).res.filter
        fun kv => !(kv.2.is_zero_cpu || kv.2.cpu.isNone || kv.2.rss.isNone)).map
          Prod.snd).any (fun r => (sortKeyOpt r).isNone) = false := by
      cases hb : (((m.tracking.foldl (get_tracking_step m) ⟨[], []⟩).res.filter
          fun kv => !(kv.2.is_zero_cpu || kv.2.cpu.isNone ||
            kv.2.rss.isNone)).map Prod.snd).any
            (fun r => (sortKeyOpt r).isNone) with
      | false => rfl
      | true =>
        exfalso
        rw [List.any_eq_true] at hb
        rcases hb with ⟨r, hr, hnone⟩
        rcases mem_filter_snd hr with ⟨k, hk, hpred⟩
        obtain ⟨-, hcs, -⟩ := retFilter_true hpred
        rcases Option.isSome_iff_exists.1 hcs with ⟨d, hd⟩
        have hnd := fold_nodup m m.tracking ⟨[], []⟩ (by simp)
        have hlk := mem_alookup_nodup hnd hk
        rcases fold_cpu_origin m m.tracking ⟨[], []⟩ k r d hlk hd with
          ⟨ra, hla, -⟩ | ⟨kv, hkv, -, hsuf, hsm⟩
        · simp [alookup] at hla
        · have hne := hcpu kv hkv hsuf
          have hsm2 : d.smoothed = kv.2.smoothed := by rw [hsm]; rfl
          rw [← hsm2] at hne
          have hd2 : r.cpu = some d := hd
          simp only [sortKeyOpt, hd2] at hnone
          cases hsm2 : d.smoothed with
          | nil => exact hne hsm2
          | cons a l =>
            rw [hsm2] at hnone
            simp [List.getLast?] at hnone
    simp only [ProcessAnalysis.get_tracking, hany, Bool.false_eq_true,
      if_false]
    rfl
  · have hany : ((mz.zero_cpu_processes.filter fun kv =>
        !(kv.2.cpu.isNone || kv.2.rss.isNone)).map Prod.snd).any
          (fun r => (sortKeyOpt r).isNone) = false := by
      cases hb : ((mz.zero_cpu_processes.filter fun kv =>
          !(kv.2.cpu.isNone || kv.2.rss.isNone)).map Prod.snd).any
            (fun r => (sortKeyOpt r).isNone) with
      | false => rfl
      | true =>
        exfalso
        rw [List.any_eq_true] at hb
        rcases hb with ⟨r, hr, hnone⟩
        rcases mem_filter_snd hr with ⟨k, hk, hpred⟩
        obtain ⟨hcs, -⟩ := zeroFilter_true hpred
        rcases Option.isSome_iff_exists.1 hcs with ⟨d, hd⟩
        have hne := hzz (k, r) hk d hd
        have hd2 : r.cpu = some d := hd
        simp only [sortKeyOpt, hd2] at hnone
        cases hsm2 : d.smoothed with
        | nil => exact hne hsm2
        | cons a l =>
          rw [hsm2] at hnone
          simp [List.getLast?] at hnone
    simp only [ProcessAnalysis.get_zero_cpu_processes, hany,
      Bool.false_eq_true, if_false]
    rfl

theorem claim_C9_witness :
    (ProcessAnalysis.get_tracking exampleIdle).isOk = true ∧
    (ProcessAnalysis.get_zero_cpu_processes exampleIdleOut).isOk = true ∧
    ProcessAnalysis.get_tracking exampleEmptySmoothed
      = .error "IndexError: list index out of range" :=
  claim_C9 exampleIdle (by decide) exampleIdleOut (by decide)

theorem exceptMap_ok {α β : Type} {f : α → β} {e : Except String α} {b : β}
    (h : Except.map f e = .ok b) : ∃ a, e = .ok a ∧ b = f a := by
  cases e with
  | error err => simp [Except.map] at h
  | ok a =>
    simp only [Except.map] at h
    rw [Except.ok.injEq] at h
    exact ⟨a, rfl, h.symm⟩

theorem attrWrite_pres {mm : List (String × PyVal)} {k : String}
    {s : SeriesModel} {mm2 : List (String × PyVal)}
    (h : attrWrite mm k s = .ok mm2) {p : String} {x : PyVal}
    (hp : alookup mm p = some x) : alookup mm2 p = some x := by
  unfold attrWrite at h
  split_ifs at h with h1
  · rw [Except.ok.injEq] at h
    rw [← h]
    exact hp
  · cases hv : s.value.head? with
    | none =>
      rw [hv] at h
      simp at h
    | some v =>
      simp only [hv] at h
      rw [Except.ok.injEq] at h
      rw [← h]
      exact alookup_append_left _ hp

theorem trackStep_pres (st : ProcessModel) (res : List (String × SeriesModel))
    (ind : String) (s : SeriesModel) (st1 : ProcessModel)
    (res1 : List (String × SeriesModel))
    (h : trackStep st res ind s = .ok (st1, res1)) (p : String) :
    (∀ x, alookup st.names p = some x → alookup st1.names p = some x) ∧
    (∀ x, alookup st.exes p = some x → alookup st1.exes p = some x) ∧
    (∀ x, alookup st.cmdlines p = some x → alookup st1.cmdlines p = some x) ∧
    (∀ x, alookup st.create_times p = some x →
      alookup st1.create_times p = some x) ∧
    (∀ x, alookup st.pids p = some x → alookup st1.pids p = some x) ∧
    (∀ x, alookup st.ppids p = some x → alookup st1.ppids p = some x) ∧
    (∀ x, alookup st.dead p = some x → alookup st1.dead p = some x) := by
  simp only [trackStep] at h
  by_cases h0 : (splitDot ind).headD "" = COMPUTEREnums.PROCESS
  case neg =>
    rw [if_neg h0, Except.ok.injEq, Prod.mk.injEq] at h
    obtain ⟨hst, -⟩ := h
    rw [← hst]
    exact ⟨fun x hx => hx, fun x hx => hx, fun x hx => hx, fun x hx => hx, fun x hx => hx, fun x hx => hx, fun x hx => hx⟩
  case pos =>
    rw [if_pos h0] at h
    by_cases ha0 : (splitDot ind).getLastD "" = "name"
    case pos =>
      rw [if_pos ha0] at h
      rcases exceptMap_ok h with ⟨mm, hw, hb⟩
      rw [Prod.mk.injEq] at hb
      obtain ⟨hst, -⟩ := hb
      rw [hst]
      exact ⟨fun x hx => attrWrite_pres hw hx, fun x hx => hx, fun x hx => hx, fun x hx => hx, fun x hx => hx, fun x hx => hx, fun x hx => hx⟩
    case neg =>
      rw [if_neg ha0] at h
      by_cases ha1 : (splitDot ind).getLastD "" = "exe"
      case pos =>
        rw [if_pos ha1] at h
        rcases exceptMap_ok h with ⟨mm, hw, hb⟩
        rw [Prod.mk.injEq] at hb
        obtain ⟨hst, -⟩ := hb
        rw [hst]
        exact ⟨fun x hx => hx, fun x hx => attrWrite_pres hw hx, fun x hx => hx, fun x hx => hx, fun x hx => hx, fun x hx => hx, fun x hx => hx⟩
      case neg =>
        rw [if_neg ha1] at h
        by_cases ha2 : (splitDot ind).getLastD "" = "cmdline"
        case pos =>
          rw [if_pos ha2] at h
          rcases exceptMap_ok h with ⟨mm, hw, hb⟩
          rw [Prod.mk.injEq] at hb
          obtain ⟨hst, -⟩ := hb
          rw [hst]
          exact ⟨fun x hx => hx, fun x hx => hx, fun x hx => attrWrite_pres hw hx, fun x hx => hx, fun x hx => hx, fun x hx => hx, fun x hx => hx⟩
        case neg =>
          rw [if_neg ha2] at h
          by_cases ha3 : (splitDot ind).getLastD "" = "create_time"
          case pos =>
            rw [if_pos ha3] at h
            rcases exceptMap_ok h with ⟨mm, hw, hb⟩
            rw [Prod.mk.injEq] at hb
            obtain ⟨hst, -⟩ := hb
            rw [hst]
            exact ⟨fun x hx => hx, fun x hx => hx, fun x hx => hx, fun x hx => attrWrite_pres hw hx, fun x hx => hx, fun x hx => hx, fun x hx => hx⟩
          case neg =>
            rw [if_neg ha3] at h
            by_cases ha4 : (splitDot ind).getLastD "" = "pid"
            case pos =>
              rw [if_pos ha4] at h
              rcases exceptMap_ok h with ⟨mm, hw, hb⟩
              rw [Prod.mk.injEq] at hb
              obtain ⟨hst, -⟩ := hb
              rw [hst]
              exact ⟨fun x hx => hx, fun x hx => hx, fun x hx => hx, fun x hx => hx, fun x hx => attrWrite_pres hw hx, fun x hx => hx, fun x hx => hx⟩
            case neg =>
              rw [if_neg ha4] at h
              by_cases ha5 : (splitDot ind).getLastD "" = "ppids"
              case pos =>
                rw [if_pos ha5] at h
                rcases exceptMap_ok h with ⟨mm, hw, hb⟩
                rw [Prod.mk.injEq] at hb
                obtain ⟨hst, -⟩ := hb
                rw [hst]
                exact ⟨fun x hx => hx, fun x hx => hx, fun x hx => hx, fun x hx => hx, fun x hx => hx, fun x hx => attrWrite_pres hw hx, fun x hx => hx⟩
              case neg =>
                rw [if_neg ha5] at h
                by_cases ha6 : (splitDot ind).getLastD "" = "dead"
                case pos =>
                  rw [if_pos ha6] at h
                  rcases exceptMap_ok h with ⟨mm, hw, hb⟩
                  rw [Prod.mk.injEq] at hb
                  obtain ⟨hst, -⟩ := hb
                  rw [hst]
                  exact ⟨fun x hx => hx, fun x hx => hx, fun x hx => hx, fun x hx => hx, fun x hx => hx, fun x hx => hx, fun x hx => attrWrite_pres hw hx⟩
                case neg =>
                  rw [if_neg ha6] at h
                  by_cases h8 : strContainsSeg
                      (String.intercalate "." (splitDot ind).dropLast) "gpu" = true
                  case pos =>
                    rw [if_pos h8] at h
                    by_cases h9 : hasKey st.gpu_processes
                        (String.intercalate "." ((splitDot ind).take 2)) = true
                    case pos =>
                      rw [if_pos h9, Except.ok.injEq, Prod.mk.injEq] at h
                      obtain ⟨hst, -⟩ := h
                      rw [← hst]
                      exact ⟨fun x hx => hx, fun x hx => hx, fun x hx => hx, fun x hx => hx, fun x hx => hx, fun x hx => hx, fun x hx => hx⟩
                    case neg =>
                      rw [if_neg h9, Except.ok.injEq, Prod.mk.injEq] at h
                      obtain ⟨hst, -⟩ := h
                      rw [← hst]
                      exact ⟨fun x hx => hx, fun x hx => hx, fun x hx => hx, fun x hx => hx, fun x hx => hx, fun x hx => hx, fun x hx => hx⟩
                  case neg =>
                    rw [if_neg h8, Except.ok.injEq, Prod.mk.injEq] at h
                    obtain ⟨hst, -⟩ := h
                    rw [← hst]
                    exact ⟨fun x hx => hx, fun x hx => hx, fun x hx => hx, fun x hx => hx, fun x hx => hx, fun x hx => hx, fun x hx => hx⟩

theorem trackGo_pres (data : List (String × SeriesModel)) :
    ∀ (st : ProcessModel) (res : List (String × SeriesModel))
      (st1 : ProcessModel) (res1 : List (String × SeriesModel)),
      trackGo st res data = .ok (st1, res1) → ∀ p : String,
      (∀ x, alookup st.names p = some x → alookup st1.names p = some x) ∧
      (∀ x, alookup st.exes p = some x → alookup st1.exes p = some x) ∧
      (∀ x, alookup st.cmdlines p = some x →
        alookup st1.cmdlines p = some x) ∧
      (∀ x, alookup st.create_times p = some x →
        alookup st1.create_times p = some x) ∧
      (∀ x, alookup st.pids p = some x → alookup st1.pids p = some x) ∧
      (∀ x, alookup st.ppids p = some x → alookup st1.ppids p = some x) ∧
      (∀ x, alookup st.dead p = some x → alookup st1.dead p = some x) := by
  induction data with
  | nil =>
    intro st res st1 res1 h p
    simp only [trackGo] at h
    rw [Except.ok.injEq, Prod.mk.injEq] at h
    obtain ⟨hst, -⟩ := h
    rw [← hst]
    exact ⟨fun x hx => hx, fun x hx => hx, fun x hx => hx, fun x hx => hx,
      fun x hx => hx, fun x hx => hx, fun x hx => hx⟩
  | cons kv rest ih =>
    obtain ⟨ind, s⟩ := kv
    intro st res st1 res1 h p
    simp only [trackGo] at h
    cases hts : trackStep st res ind s with
    | error e =>
      rw [hts] at h
      simp at h
    | ok pr =>
      obtain ⟨stm, resm⟩ := pr
      rw [hts] at h
      have h1 := trackStep_pres st res ind s stm resm hts p
      have h2 := ih stm resm st1 res1 h p
      exact ⟨fun x hx => h2.1 x (h1.1 x hx),
        fun x hx => h2.2.1 x (h1.2.1 x hx),
        fun x hx => h2.2.2.1 x (h1.2.2.1 x hx),
        fun x hx => h2.2.2.2.1 x (h1.2.2.2.1 x hx),
        fun x hx => h2.2.2.2.2.1 x (h1.2.2.2.2.1 x hx),
        fun x hx => h2.2.2.2.2.2.1 x (h1.2.2.2.2.2.1 x hx),
        fun x hx => h2.2.2.2.2.2.2 x (h1.2.2.2.2.2.2 x hx)⟩

/-- C2: `track` never overwrites a present entry of any of the seven
static attribute maps — first-write-wins, for `dead` exactly as for the
identity attributes. -/
theorem claim_C2 (st : ProcessModel) (data : List (String × SeriesModel))
    (st2 : ProcessModel)
    (hok : ProcessAnalysis.track st data = .ok st2) (p : String) :
    (∀ x, alookup st.names p = some x → alookup st2.names p = some x) ∧
    (∀ x, alookup st.exes p = some x → alookup st2.exes p = some x) ∧
    (∀ x, alookup st.cmdlines p = some x → alookup st2.cmdlines p = some x) ∧
    (∀ x, alookup st.create_times p = some x →
      alookup st2.create_times p = some x) ∧
    (∀ x, alookup st.pids p = some x → alookup st2.pids p = some x) ∧
    (∀ x, alookup st.ppids p = some x → alookup st2.ppids p = some x) ∧
    (∀ x, alookup st.dead p = some x → alookup st2.dead p = some x) := by
  simp only [ProcessAnalysis.track] at hok
  cases hgo : trackGo st [] data with
  | error e =>
    rw [hgo] at hok
    simp at hok
  | ok pr =>
    obtain ⟨st1, res⟩ := pr
    rw [hgo] at hok
    rw [Except.ok.injEq] at hok
    have h1 := trackGo_pres data st [] st1 res hgo p
    rw [← hok]
    exact h1

theorem claim_C2_witness :
    (∀ x, alookup exampleNamed.names "process.a" = some x →
      alookup exampleNamed.names "process.a" = some x) ∧
    (∀ x, alookup exampleNamed.exes "process.a" = some x →
      alookup exampleNamed.exes "process.a" = some x) ∧
    (∀ x, alookup exampleNamed.cmdlines "process.a" = some x →
      alookup exampleNamed.cmdlines "process.a" = some x) ∧
    (∀ x, alookup exampleNamed.create_times "process.a" = some x →
      alookup exampleNamed.create_times "process.a" = some x) ∧
    (∀ x, alookup exampleNamed.pids "process.a" = some x →
      alookup exampleNamed.pids "process.a" = some x) ∧
    (∀ x, alookup exampleNamed.ppids "process.a" = some x →
      alookup exampleNamed.ppids "process.a" = some x) ∧
    (∀ x, alookup exampleNamed.dead "process.a" = some x →
      alookup exampleNamed.dead "process.a" = some x) :=
  claim_C2 exampleNamed [("process.a.name", nameSample)] exampleNamed
    (by decide) "process.a"

theorem trackStep_skip (st : ProcessModel) (res : List (String × SeriesModel))
    (ind : String) (s : SeriesModel)
    (hmal : derivedType ind ≠ COMPUTEREnums.PROCESS) :
    trackStep st res ind s = .ok (st, res) := by
  simp only [derivedType] at hmal
  simp only [trackStep]
  rw [if_neg hmal]

theorem trackGo_skip (st : ProcessModel) (res : List (String × SeriesModel))
    (data1 data2 : List (String × SeriesModel)) (ind : String)
    (s : SeriesModel) (hmal : derivedType ind ≠ COMPUTEREnums.PROCESS) :
    trackGo st res (data1 ++ (ind, s) :: data2)
      = trackGo st res (data1 ++ data2) := by
  induction data1 generalizing st res with
  | nil =>
    simp only [List.nil_append, trackGo, trackStep_skip st res ind s hmal]
  | cons kv rest ih =>
    obtain ⟨i2, s2⟩ := kv
    simp only [List.cons_append, trackGo]
    cases hts : trackStep st res i2 s2 with
    | error e => rfl
    | ok pr =>
      obtain ⟨stm, resm⟩ := pr
      exact ih stm resm

/-- C7 (amended): a key whose first dot-segment is not the process
analysis type is skipped by `track` — no error, no change to any
attribute map, the GPU-set map, or the batch forwarded to the series
store.  (A one-segment key *with* the known prefix is not skipped: see
the counterexample.) -/
theorem claim_C7 (st : ProcessModel)
    (data1 data2 : List (String × SeriesModel)) (ind : String)
    (s : SeriesModel) (hmal : derivedType ind ≠ COMPUTEREnums.PROCESS) :
    ProcessAnalysis.track st (data1 ++ (ind, s) :: data2)
      = ProcessAnalysis.track st (data1 ++ data2) := by
  simp only [ProcessAnalysis.track,
    trackGo_skip st [] data1 data2 ind s hmal]

/-- C7 counterexample: the single-segment key `"process"` has fewer than
2 dot-segments, yet `track` does not skip it — it is forwarded to the
series store (with empty process id) and lands in the tracking store. -/
theorem claim_C7_counterexample :
    (splitDot "process").length < 2 ∧
      trackGo ProcessModel.defaults [] [("process", sampleVal7)]
        = .ok (ProcessModel.defaults, [("process", sampleVal7)]) ∧
      ProcessAnalysis.track ProcessModel.defaults [("process", sampleVal7)]
        = .ok { ProcessModel.defaults with
            tracking := [("process", sampleVal7)] } :=
  ⟨by decide, by decide, by decide⟩

theorem claim_C7_witness :
    ProcessAnalysis.track ProcessModel.defaults
        ([] ++ ("unknown.cpu", sampleVal7) :: [])
      = ProcessAnalysis.track ProcessModel.defaults ([] ++ []) :=
  claim_C7 ProcessModel.defaults [] [] "unknown.cpu" sampleVal7 (by decide)
